import Mathlib

/-! Shallow embedding of `rbxml_parse_element` (src/ext/xml_parser.c).

The scanner reads one structural unit (tag, comment or raw text) from the
bytes of a host string, starting at the cursor `@off`, and writes the cursor
and the line counter `@lineno` back.

Modelling conventions:

* the buffer is the list of the string's bytes; the host keeps a NUL byte at
  index `len`, so a read at an index `i ≤ len` is defined and a read at a
  larger index is the outcome `Stop.oob`;
* `unsigned long` is 64 bits wide (LP64).  Offsets never exceed `len + 1`
  (a larger one is an out-of-bounds read first), so they are plain naturals;
  the line counter is incremented modulo `2 ^ 64`;
* the loops `for (;;)` / `while` carry a fuel argument; the entry point gives
  each of them `len + 1`, and running dry is the outcome `Stop.nofuel`.
-/

namespace XmlParser

/-- Bytes of a string, one natural number per byte. -/
abbrev Bytes := List Nat

/-- Number of values of an `unsigned long` (LP64). -/
def ULONG_MOD : Nat := 18446744073709551616

/-- Modelled from the spec: the Ruby class `Xml::Tag` is not part of the
extension source.  A tag keeps the name given to `Tag.new` (read back through
`@name`), the log of its `[]=` calls in call order, and the flag raised by
`set_uniq` (the spec's `selfClosing`). -/
structure Tag where
  name : Bytes
  attrs : List (Bytes × Bytes)
  uniq : Bool
deriving DecidableEq, Repr

/-- Modelled from the spec: the value handed back to the caller, an
`Xml::Tag`, an `Xml::Comment` built from its text, or the decoded raw
string. -/
inductive Node where
  | tag (t : Tag)
  | comment (text : Bytes)
  | text (content : Bytes)
deriving DecidableEq, Repr

/-- Ways a call stops without returning a node. -/
inductive Stop where
  /-- Macro `do_raise`: cursor and line are written back, then the exception
  carrying the formatted message is raised. -/
  | raised (msg : Bytes) (off lineno : Nat)
  /-- Host `rb_str_new` called with a length that is negative as a `long`:
  the host raises `ArgumentError`; nothing is written back. -/
  | badlen
  /-- A byte outside `str[0 .. len]` would be read. -/
  | oob
  /-- The model's loop fuel ran out. -/
  | nofuel
deriving DecidableEq, Repr

/-- Result of a step of the scanner. -/
inductive Res (α : Type) where
  | ok (a : α)
  | stop (s : Stop)
deriving DecidableEq, Repr

/-- Sequencing of steps: the first stop ends the call. -/
def Res.bind {α β : Type} (x : Res α) (f : α → Res β) : Res β :=
  match x with
  | .ok a => f a
  | .stop s => .stop s

instance : Monad Res where
  pure := Res.ok
  bind := Res.bind

/-- The byte `str[i]` for `i ≤ len` (the byte at `len` is the NUL). -/
def byte (str : Bytes) (i : Nat) : Nat := str.getD i 0

/-- Checked read of `str[i]`. -/
def rd (str : Bytes) (i : Nat) : Res Nat :=
  if i ≤ str.length then .ok (byte str i) else .stop .oob

/-- Checked read of `str[off - k]` in `unsigned long` arithmetic: when
`off < k` the index wraps to a huge value, outside the string. -/
def rdBack (str : Bytes) (off k : Nat) : Res Nat :=
  if k ≤ off then rd str (off - k) else .stop .oob

/-- Length of the longest prefix whose bytes all satisfy `p`. -/
def spanLen (p : Nat → Bool) : Bytes → Nat
  | [] => 0
  | c :: cs => if p c then spanLen p cs + 1 else 0

/-- The table wstagname, `" \r\t\n/>"`. -/
def wstagname : Bytes := [32, 13, 9, 10, 47, 62]

/-- The table spacewhite, `" \r\t"`. -/
def spacewhite : Bytes := [32, 13, 9]

/-- libc `strspn (str + off, accept)`: the scan stops at the first byte not
in `accept`, at the latest at the NUL that ends the C string. -/
def strspn (str : Bytes) (off : Nat) (accept : Bytes) : Res Nat :=
  if off ≤ str.length then
    .ok (spanLen (fun c => c != 0 && accept.contains c) (str.drop off))
  else .stop .oob

/-- libc `strcspn (str + off, reject)`: the scan stops at the first byte in
`reject`, at the latest at the NUL that ends the C string. -/
def strcspn (str : Bytes) (off : Nat) (reject : Bytes) : Res Nat :=
  if off ≤ str.length then
    .ok (spanLen (fun c => c != 0 && !reject.contains c) (str.drop off))
  else .stop .oob

/-- Host `rb_str_new (str + a, b - a)`: a copy of `str[a, b)`.  The length
`b - a` is computed in `unsigned long` and taken as a `long`, so `b < a`
gives a negative length. -/
def rb_str_new (str : Bytes) (a b : Nat) : Res Bytes :=
  if b < a then .stop .badlen
  else if b ≤ str.length + 1 then .ok (((str ++ [0]).drop a).take (b - a))
  else .stop .oob

/-- A `%s` argument of `snprintf`: the bytes up to the first NUL. -/
def cstr (s : Bytes) : Bytes := s.takeWhile (fun c => c != 0)

/-- Output of `snprintf (errmsg, sizeof (errmsg), ...)` with `errmsg[255]`:
at most 254 bytes of the formatted text are kept. -/
def snprintf255 (text : Bytes) : Bytes := text.take 254

/-- Macro `do_raise`. -/
def do_raise {α : Type} (text : Bytes) (off lineno : Nat) : Res α :=
  .stop (.raised (snprintf255 text) off lineno)

/-- Format `"expected /> in <%s"`. -/
def msgExpectedClose (name : Bytes) : Bytes :=
  [101, 120, 112, 101, 99, 116, 101, 100, 32, 47, 62, 32, 105, 110, 32, 60] ++ cstr name

/-- Format `"invalid ? in <%s"`. -/
def msgInvalidQuestion (name : Bytes) : Bytes :=
  [105, 110, 118, 97, 108, 105, 100, 32, 63, 32, 105, 110, 32, 60] ++ cstr name

/-- Format `"unclosed quote in <%s %s="`. -/
def msgUnclosedQuote (name attr : Bytes) : Bytes :=
  [117, 110, 99, 108, 111, 115, 101, 100, 32, 113, 117, 111, 116, 101, 32, 105, 110, 32, 60]
    ++ cstr name ++ [32] ++ cstr attr ++ [61]

/-- Format `"invalid attribute for <%s"`. -/
def msgInvalidAttribute (name : Bytes) : Bytes :=
  [105, 110, 118, 97, 108, 105, 100, 32, 97, 116, 116, 114, 105, 98, 117, 116, 101, 32,
    102, 111, 114, 32, 60] ++ cstr name

/-- Format `"unclosed tag <%s"`. -/
def msgUnclosedTag (name : Bytes) : Bytes :=
  [117, 110, 99, 108, 111, 115, 101, 100, 32, 116, 97, 103, 32, 60] ++ cstr name

/-- Macro `skipspaces`: skip spacewhite bytes, and newlines with the line
counter kept up to date. -/
def skipspaces (str : Bytes) : Nat → Nat → Nat → Res (Nat × Nat)
  | 0, _, _ => .stop .nofuel
  | fuel + 1, off, lineno => do
    let n ← strspn str off spacewhite
    let c ← rd str (off + n)
    if c != 10 then pure (off + n, lineno)
    else skipspaces str fuel (off + n + 1) ((lineno + 1) % ULONG_MOD)

/-- Test of line 76, `off > off_start + 3 && str[off - 2] == '-' &&
str[off - 3] == '-'`, with the short circuit of `&&`. -/
def commentClosed (str : Bytes) (off_start off : Nat) : Res Bool :=
  if off > off_start + 3 then do
    let c2 ← rdBack str off 2
    if c2 == 45 then do
      let c3 ← rdBack str off 3
      pure (c3 == 45)
    else pure false
  else pure false

/-- Loop of lines 68-80: scan for the end of the comment. -/
def commentLoop (str : Bytes) (off_start : Nat) : Nat → Nat → Nat → Res (Nat × Nat)
  | 0, _, _ => .stop .nofuel
  | fuel + 1, off, lineno => do
    let n ← strcspn str off [10, 62]
    let c ← rd str (off + n)
    if c == 10 then
      commentLoop str off_start fuel (off + n + 1) ((lineno + 1) % ULONG_MOD)
    else if c == 62 then do
      let closed ← commentClosed str off_start (off + n + 1)
      if closed then pure (off + n + 1, lineno)
      else commentLoop str off_start fuel (off + n + 1) lineno
    else pure (off + n, lineno)

/-- Test of line 84, `str[off_end - 1] == '>' && str[off_end - 2] == '-' &&
str[off_end - 3]`, with the short circuit of `&&`. -/
def commentStrip (str : Bytes) (off_end : Nat) : Res Bool := do
  let c1 ← rdBack str off_end 1
  if c1 == 62 then do
    let c2 ← rdBack str off_end 2
    if c2 == 45 then do
      let c3 ← rdBack str off_end 3
      pure (c3 != 0)
    else pure false
  else pure false

/-- Test of line 63, `str[off_start] == '!' && str[off_start + 1] == '-' &&
str[off_start + 2] == '-'`, with the short circuit of `&&`. -/
def commentStart (str : Bytes) (off_start : Nat) : Res Bool := do
  let c0 ← rd str off_start
  if c0 == 33 then do
    let c1 ← rd str (off_start + 1)
    if c1 == 45 then do
      let c2 ← rd str (off_start + 2)
      pure (c2 == 45)
    else pure false
  else pure false

/-- Bytes of an attribute name (lines 122-131). -/
def attrNameChar (c : Nat) : Bool :=
  (97 ≤ c && c ≤ 122) || (65 ≤ c && c ≤ 90) || (48 ≤ c && c ≤ 57) ||
    c == 95 || c == 36 || c == 58 || c == 46 || c == 45

/-- Case labels `'a' ... 'z'` and `'A' ... 'Z'` (lines 118-119). -/
def isAlpha (c : Nat) : Bool := (97 ≤ c && c ≤ 122) || (65 ≤ c && c ≤ 90)

/-- Lines 138-167: the value of an attribute whose name is `attrname`, with
the cursor just after the name and the spaces that follow it. -/
def attrValue (str : Bytes) (fuel : Nat) (name attrname : Bytes) (off lineno : Nat) :
    Res (Bytes × Nat × Nat) := do
  let c ← rd str off
  if c == 61 then do
    let (off, lineno) ← skipspaces str fuel (off + 1) lineno
    let sep ← rd str off
    if sep == 34 || sep == 39 then do
      let off_start := off + 1
      -- while ( off < str_len && str[off] != sep ), newlines counted
      let n := spanLen (fun c => c != sep) (str.drop off_start)
      let lineno := (lineno + ((str.drop off_start).take n).count 10) % ULONG_MOD
      let off := off_start + n
      let c ← rd str off
      if c != sep then do_raise (msgUnclosedQuote name attrname) off lineno
      else do
        let attrvalue ← rb_str_new str off_start off
        pure (attrvalue, off + 1, lineno)
    else do
      let n ← strcspn str off wstagname
      let attrvalue ← rb_str_new str off (off + n)
      pure (attrvalue, off + n, lineno)
  else pure (attrname, off, lineno)

/-- Loop of lines 94-177: the attributes of the tag `t`.  The parameter
`decode` is `Xml.entities_decode`. -/
def tagLoop (decode : Bytes → Bytes) (str : Bytes) : Nat → Nat → Nat → Tag → Res (Nat × Nat × Tag)
  | 0, _, _, _ => .stop .nofuel
  | fuel + 1, off, lineno, t =>
    if off < str.length && byte str off != 62 then do
      let (off, lineno) ← skipspaces str (str.length + 1) off lineno
      let c ← rd str off
      if c == 62 then tagLoop decode str fuel off lineno t
      else if c == 47 then do
        let (off, lineno) ← skipspaces str (str.length + 1) (off + 1) lineno
        let c ← rd str off
        if c != 62 then do_raise (msgExpectedClose t.name) off lineno
        else tagLoop decode str fuel off lineno { t with uniq := true }
      else if c == 63 then
        if byte t.name 0 != 63 then do_raise (msgInvalidQuestion t.name) off lineno
        else tagLoop decode str fuel (off + 1) lineno t
      else if isAlpha c then do
        -- while ( off < str_len && <attribute name byte> ) ++off
        let off_start := off
        let off := off + spanLen attrNameChar (str.drop off)
        let attrname ← rb_str_new str off_start off
        let (off, lineno) ← skipspaces str (str.length + 1) off lineno
        let (attrvalue, off, lineno) ← attrValue str (str.length + 1) t.name attrname off lineno
        tagLoop decode str fuel off lineno
          { t with attrs := t.attrs ++ [(attrname, decode attrvalue)] }
      else do_raise (msgInvalidAttribute t.name) off lineno
    else pure (off, lineno, t)

/-- Lines 94-181 and 201-204: the attribute loop on the tag `t`, the test for
the closing `'>'`, and the return of the tag with the cursor after it. -/
def tagRest (decode : Bytes → Bytes) (str : Bytes) (fuel off lineno : Nat) (t : Tag) :
    Res (Node × Nat × Nat) := do
  let (off, lineno, t) ← tagLoop decode str fuel off lineno t
  let c ← rd str off
  if c != 62 then do_raise (msgUnclosedTag t.name) off lineno
  else pure (.tag t, off + 1, lineno)

/-- Loop of lines 188-195: scan raw text up to the next tag start. -/
def textLoop (str : Bytes) : Nat → Nat → Nat → Res (Nat × Nat)
  | 0, _, _ => .stop .nofuel
  | fuel + 1, off, lineno => do
    let n ← strcspn str off [10, 60]
    let c ← rd str (off + n)
    if c != 10 then pure (off + n, lineno)
    else textLoop str fuel (off + n + 1) ((lineno + 1) % ULONG_MOD)

/-- The function `rbxml_parse_element` on the buffer `str` with `@off = off`
and `@lineno = lineno`; a returned triple is the node and the values written
back to `@off` and `@lineno`.  The parameter `decode` is
`Xml.entities_decode`. -/
def rbxml_parse_element (decode : Bytes → Bytes) (str : Bytes) (off lineno : Nat) :
    Res (Node × Nat × Nat) := do
  let c ← rd str off
  if c == 60 then do
    let (off, lineno) ← skipspaces str (str.length + 1) (off + 1) lineno
    let off_start := off
    let c ← rd str off
    let off := if c == 47 then off + 1 else off
    let n ← strcspn str off wstagname
    let off := off + n
    let isComment ← commentStart str off_start
    if isComment then do
      let off_start := off_start + 3
      let (off, lineno) ← commentLoop str off_start (str.length + 1) off lineno
      let strip ← commentStrip str off
      let off_end := if strip then off - 3 else off
      let text ← rb_str_new str off_start off_end
      pure (.comment text, off, lineno)
    else do
      let name ← rb_str_new str off_start off
      tagRest decode str (str.length + 1) off lineno { name := name, attrs := [], uniq := false }
  else do
    let off_start := off
    let (off, lineno) ← textLoop str (str.length + 1) off lineno
    let text ← rb_str_new str off_start off
    pure (.text (decode text), off, lineno)

/-- Bytes of an ASCII text. -/
def ofString (s : String) : Bytes := s.toList.map Char.toNat

/-- The bytes `str[a, b)`. -/
def slice (str : Bytes) (a b : Nat) : Bytes := (str.drop a).take (b - a)

/-- Number of newline bytes in `str[a, b)`. -/
def nlRange (str : Bytes) (a b : Nat) : Nat := (slice str a b).count 10

/-- The cursor moved from `off` to `off'` inside the buffer and the line
counter followed the newlines of `str[off, off')`, modulo `2 ^ 64`. -/
def Scan (str : Bytes) (off lineno off' lineno' : Nat) : Prop :=
  off ≤ off' ∧ off' ≤ str.length ∧ lineno' = (lineno + nlRange str off off') % ULONG_MOD

/-- Bytes skipped by the macro `skipspaces`. -/
def isWhite (c : Nat) : Prop := c = 32 ∨ c = 13 ∨ c = 9 ∨ c = 10

instance (c : Nat) : Decidable (isWhite c) := by
  unfold isWhite; infer_instance

/-- The byte at `j` is a `'>'` that ends the comment whose text starts at
`off_start`: the test of line 76 succeeds with the cursor just after it. -/
def closing (str : Bytes) (off_start j : Nat) : Prop :=
  byte str j = 62 ∧ off_start + 3 < j + 1 ∧ byte str (j - 1) = 45 ∧ byte str (j - 2) = 45

/-- What the attribute loop guarantees when entered at `off` with the tag
`t`: on exit the cursor and line are in step, the name is untouched, the
cursor is at the end of the buffer or on a `'>'`, and a raised flag that was
not raised before comes from a `'/'` followed only by blanks; a parse error
leaves the cursor inside the buffer; no other stop occurs. -/
def TagLoopPost (str : Bytes) (off lineno : Nat) (t : Tag) : Res (Nat × Nat × Tag) → Prop
  | .ok (off', lineno', t') =>
      Scan str off lineno off' lineno' ∧ t'.name = t.name ∧
      (str.length ≤ off' ∨ byte str off' = 62) ∧
      (t'.uniq = true → t.uniq = true ∨
        ∃ i, off ≤ i ∧ i < off' ∧ byte str i = 47 ∧ ∀ j, i < j → j < off' → isWhite (byte str j))
  | .stop (.raised _ o _) => o ≤ str.length
  | .stop _ => False

/-- What a call at `off` guarantees: a returned node comes with cursor and
line in step, progress past a non-NUL byte, and a `'>'` just before the new
cursor when it is a tag; a parse error leaves the cursor inside the buffer;
a negative copy length arises on the `'<'` path only; no out-of-bounds read
and no fuel shortage occur. -/
def ParsePost (str : Bytes) (off lineno : Nat) : Res (Node × Nat × Nat) → Prop
  | .ok (node, off', lineno') =>
      Scan str off lineno off' lineno' ∧ (byte str off ≠ 0 → off < off') ∧
      (∀ t, node = .tag t → 0 < off' ∧ byte str (off' - 1) = 62)
  | .stop (.raised _ o _) => o ≤ str.length
  | .stop .badlen => byte str off = 60
  | .stop _ => False

/-- The construct at `off` is a comment: after the `'<'` at `off` and the
blanks skipped by lines 54-55, the test of line 63 finds the bytes `!--`. -/
def commentAt (str : Bytes) (off : Nat) : Bool :=
  match skipspaces str (str.length + 1) (off + 1) 0 with
  | .ok (o, _) => byte str o == 33 && byte str (o + 1) == 45 && byte str (o + 2) == 45
  | .stop _ => false

/-- A well-formed tag name: non-empty, without blank, newline, `'/'`, `'>'`
or NUL, and not beginning with `!--`. -/
def wfName (n : Bytes) : Prop :=
  n ≠ [] ∧ (∀ c ∈ n, c ≠ 32 ∧ c ≠ 13 ∧ c ≠ 9 ∧ c ≠ 10 ∧ c ≠ 47 ∧ c ≠ 62 ∧ c ≠ 0) ∧
    ¬ ([33, 45, 45] <+: n)

/-- A well-formed attribute name: it starts with an ASCII letter and consists
of letters, digits, `_`, `$`, `:`, `.`, `-`. -/
def wfAttrName (k : Bytes) : Prop :=
  k ≠ [] ∧ isAlpha (byte k 0) = true ∧ ∀ c ∈ k, attrNameChar c = true

instance (n : Bytes) : Decidable (wfName n) := by
  unfold wfName; infer_instance

instance (k : Bytes) : Decidable (wfAttrName k) := by
  unfold wfAttrName; infer_instance

/-- The text ` k="v"` of each attribute in turn. -/
def attrsText : List (Bytes × Bytes) → Bytes
  | [] => []
  | (k, v) :: rest => 32 :: (k ++ 61 :: 34 :: (v ++ 34 :: attrsText rest))

/-- The unfinished tag `<n k=qv` of claim C9: the buffer ends inside the
value opened by the quote `q`. -/
def unclosedQuoteText (n k : Bytes) (q : Nat) (v : Bytes) : Bytes :=
  60 :: (n ++ 32 :: (k ++ 61 :: q :: v))

/-- The tag `<n k>` of claim C13, with the bare attribute `k`. -/
def bareAttrText (n k : Bytes) : Bytes := 60 :: (n ++ 32 :: (k ++ [62]))

/-- The closing tag `</n>` of claim C17. -/
def closeTagText (n : Bytes) : Bytes := 60 :: 47 :: (n ++ [62])

/-- The open tag `<n k1="v1" ... >`. -/
def openTagText (n : Bytes) (kvs : List (Bytes × Bytes)) : Bytes :=
  60 :: (n ++ (attrsText kvs ++ [62]))

/-! ## Sequencing and reads -/

@[simp] theorem Res.ok_bind {α β : Type} (a : α) (f : α → Res β) :
    (Res.ok a >>= f) = f a := rfl

@[simp] theorem Res.stop_bind {α β : Type} (s : Stop) (f : α → Res β) :
    ((Res.stop s : Res α) >>= f) = Res.stop s := rfl

@[simp] theorem Res.pure_eq {α : Type} (a : α) : (pure a : Res α) = Res.ok a := rfl

theorem byte_of_le {str : Bytes} {i : Nat} (h : str.length ≤ i) : byte str i = 0 := by
  simp [byte, List.getD_eq_getElem?_getD, List.getElem?_eq_none h]

theorem byte_eq_getElem {str : Bytes} {i : Nat} (h : i < str.length) : byte str i = str[i] := by
  simp [byte, List.getD_eq_getElem?_getD, List.getElem?_eq_getElem h]

theorem byte_mem {str : Bytes} {i : Nat} (h : i < str.length) : byte str i ∈ str := by
  rw [byte_eq_getElem h]; exact List.getElem_mem h

theorem byte_lt_of_ne_zero {str : Bytes} {i : Nat} (h : byte str i ≠ 0) : i < str.length := by
  by_contra hc
  exact h (byte_of_le (Nat.le_of_not_lt hc))

theorem byte_drop (str : Bytes) (a i : Nat) : byte (str.drop a) i = byte str (a + i) := by
  simp [byte, List.getD_eq_getElem?_getD, List.getElem?_drop]

theorem byte_append_right (pre suf : Bytes) (i : Nat) :
    byte (pre ++ suf) (pre.length + i) = byte suf i := by
  simp [byte, List.getD_eq_getElem?_getD, List.getElem?_append_right]

theorem byte_append_left {pre : Bytes} (suf : Bytes) {i : Nat} (h : i < pre.length) :
    byte (pre ++ suf) i = byte pre i := by
  simp [byte, List.getD_eq_getElem?_getD, List.getElem?_append_left h]

@[simp] theorem byte_cons_zero (c : Nat) (cs : Bytes) : byte (c :: cs) 0 = c := rfl

@[simp] theorem byte_cons_succ (c : Nat) (cs : Bytes) (i : Nat) :
    byte (c :: cs) (i + 1) = byte cs i := rfl

@[simp] theorem byte_nil (i : Nat) : byte [] i = 0 := by simp [byte]

theorem rd_ok {str : Bytes} {i : Nat} (h : i ≤ str.length) : rd str i = .ok (byte str i) := by
  simp [rd, h]

theorem rdBack_ok {str : Bytes} {off k : Nat} (hk : k ≤ off) (h : off ≤ str.length + k) :
    rdBack str off k = .ok (byte str (off - k)) := by
  have : off - k ≤ str.length := by omega
  simp [rdBack, hk, rd_ok this]

/-! ## Spans -/

@[simp] theorem spanLen_nil (p : Nat → Bool) : spanLen p [] = 0 := rfl

theorem spanLen_cons (p : Nat → Bool) (c : Nat) (cs : Bytes) :
    spanLen p (c :: cs) = if p c then spanLen p cs + 1 else 0 := rfl

theorem spanLen_le (p : Nat → Bool) (s : Bytes) : spanLen p s ≤ s.length := by
  induction s with
  | nil => simp [spanLen]
  | cons c cs ih =>
    by_cases h : p c = true
    · simp [spanLen, h]; exact ih
    · simp [spanLen, h]

theorem spanLen_all (p : Nat → Bool) (s : Bytes) (i : Nat) (h : i < spanLen p s) :
    p (byte s i) = true := by
  induction s generalizing i with
  | nil => simp [spanLen] at h
  | cons c cs ih =>
    by_cases hc : p c = true
    · cases i with
      | zero => simpa using hc
      | succ j =>
        simp only [spanLen, hc, if_true] at h
        simpa using ih j (by omega)
    · simp [spanLen, hc] at h

theorem spanLen_stop (p : Nat → Bool) (s : Bytes) (h : spanLen p s < s.length) :
    p (byte s (spanLen p s)) = false := by
  induction s with
  | nil => simp at h
  | cons c cs ih =>
    by_cases hc : p c = true
    · simp only [spanLen, hc, if_true, List.length_cons] at h ⊢
      simpa using ih (by omega)
    · simp only [spanLen, hc]
      simpa using hc

theorem spanLen_unique (p : Nat → Bool) (s : Bytes) (n : Nat) (hn : n ≤ s.length)
    (hall : ∀ i, i < n → p (byte s i) = true)
    (hstop : n < s.length → p (byte s n) = false) : spanLen p s = n := by
  rcases Nat.lt_trichotomy (spanLen p s) n with h | h | h
  · have h1 := spanLen_stop p s (by omega)
    have h2 := hall _ h
    simp [h1] at h2
  · exact h
  · have h1 := spanLen_all p s n h
    have h2 := hstop (by have := spanLen_le p s; omega)
    simp [h1] at h2

theorem spanLen_append (p : Nat → Bool) (a rest : Bytes) (ha : ∀ x ∈ a, p x = true)
    (hr : p (byte rest 0) = false ∨ rest = []) : spanLen p (a ++ rest) = a.length := by
  induction a with
  | nil =>
    cases rest with
    | nil => simp [spanLen]
    | cons c cs =>
      rcases hr with hr | hr
      · simp at hr; simp [spanLen, hr]
      · simp at hr
  | cons c cs ih =>
    have hc : p c = true := ha c (by simp)
    have h2 := ih (fun x hx => ha x (by simp [hx]))
    rw [List.cons_append, spanLen_cons, h2]
    simp [hc]

/-! ## Newline counts -/

theorem nlRange_self (str : Bytes) (a : Nat) : nlRange str a a = 0 := by
  simp [nlRange, slice]

theorem nlRange_add (str : Bytes) {a b c : Nat} (hab : a ≤ b) (hbc : b ≤ c) :
    nlRange str a c = nlRange str a b + nlRange str b c := by
  unfold nlRange slice
  have h1 : c - a = (b - a) + (c - b) := by omega
  rw [h1, List.take_add, List.count_append, List.drop_drop]
  have h2 : a + (b - a) = b := by omega
  rw [h2]

theorem nlRange_one (str : Bytes) (a : Nat) :
    nlRange str a (a + 1) = if byte str a = 10 then 1 else 0 := by
  unfold nlRange slice
  have h1 : a + 1 - a = 1 := by omega
  rw [h1]
  by_cases h : a < str.length
  · rw [byte_eq_getElem h, List.drop_eq_getElem_cons h]
    simp only [List.take_succ_cons, List.take_zero, List.count_cons, List.count_nil]
    by_cases h3 : str[a] = 10 <;> simp [h3]
  · have h2 : str.length ≤ a := Nat.le_of_not_lt h
    rw [List.drop_eq_nil_of_le h2, byte_of_le h2]
    simp

theorem nlRange_zero (str : Bytes) (a b : Nat)
    (h : ∀ i, a ≤ i → i < b → byte str i ≠ 10) : nlRange str a b = 0 := by
  induction b with
  | zero => simp [nlRange, slice]
  | succ b ih =>
    by_cases hab : a ≤ b
    · rw [nlRange_add str hab (Nat.le_succ b), nlRange_one,
        ih (fun i h1 h2 => h i h1 (by omega))]
      simp [h b hab (by omega)]
    · have : b + 1 - a = 0 := by omega
      simp [nlRange, slice, this]

theorem span_drop_spec (p : Nat → Bool) (str : Bytes) (off : Nat) (h : off ≤ str.length) :
    off + spanLen p (str.drop off) ≤ str.length ∧
    (∀ i, off ≤ i → i < off + spanLen p (str.drop off) → p (byte str i) = true) ∧
    (off + spanLen p (str.drop off) < str.length →
      p (byte str (off + spanLen p (str.drop off))) = false) := by
  have hle := spanLen_le p (str.drop off)
  rw [List.length_drop] at hle
  refine ⟨by omega, ?_, ?_⟩
  · intro i h1 h2
    have := spanLen_all p (str.drop off) (i - off) (by omega)
    rw [byte_drop] at this
    have h3 : off + (i - off) = i := by omega
    rwa [h3] at this
  · intro h1
    have := spanLen_stop p (str.drop off) (by rw [List.length_drop]; omega)
    rwa [byte_drop] at this

theorem span_drop_stop (p : Nat → Bool) (hp : p 0 = false) (str : Bytes) (off : Nat)
    (h : off ≤ str.length) : p (byte str (off + spanLen p (str.drop off))) = false := by
  by_cases h1 : off + spanLen p (str.drop off) < str.length
  · exact (span_drop_spec p str off h).2.2 h1
  · rw [byte_of_le (Nat.le_of_not_lt h1)]; exact hp

/-! ## Cursor and line bookkeeping -/

theorem Scan.refl (str : Bytes) {off lineno : Nat} (h : off ≤ str.length)
    (hl : lineno < ULONG_MOD) : Scan str off lineno off lineno := by
  refine ⟨Nat.le_refl _, h, ?_⟩
  rw [nlRange_self, Nat.add_zero, Nat.mod_eq_of_lt hl]

theorem Scan.lt {str : Bytes} {off lineno off' lineno' : Nat}
    (h : Scan str off lineno off' lineno') : lineno' < ULONG_MOD := by
  rw [h.2.2]
  exact Nat.mod_lt _ (by decide)

theorem Scan.trans {str : Bytes} {a la b lb c lc : Nat}
    (h1 : Scan str a la b lb) (h2 : Scan str b lb c lc) : Scan str a la c lc := by
  obtain ⟨hab, _, e1⟩ := h1
  obtain ⟨hbc, hc, e2⟩ := h2
  refine ⟨Nat.le_trans hab hbc, hc, ?_⟩
  rw [e2, e1, nlRange_add str hab hbc, Nat.add_mod, Nat.mod_mod, ← Nat.add_mod, Nat.add_assoc]

theorem Scan.span {str : Bytes} {a la b : Nat} (hab : a ≤ b) (hb : b ≤ str.length)
    (hl : la < ULONG_MOD) (h : ∀ i, a ≤ i → i < b → byte str i ≠ 10) :
    Scan str a la b la := by
  refine ⟨hab, hb, ?_⟩
  rw [nlRange_zero str a b h, Nat.add_zero, Nat.mod_eq_of_lt hl]

theorem Scan.newline {str : Bytes} {a la : Nat} (ha : a < str.length)
    (h : byte str a = 10) : Scan str a la (a + 1) ((la + 1) % ULONG_MOD) := by
  refine ⟨Nat.le_succ _, ha, ?_⟩
  rw [nlRange_one, if_pos h]

theorem Scan.other {str : Bytes} {a la : Nat} (ha : a < str.length) (hl : la < ULONG_MOD)
    (h : byte str a ≠ 10) : Scan str a la (a + 1) la :=
  Scan.span (Nat.le_succ _) ha hl (fun i h1 h2 => by
    have : i = a := by omega
    rw [this]; exact h)

/-! ## The macro `skipspaces` -/

theorem strspn_spec (str : Bytes) (off : Nat) (h : off ≤ str.length) (accept : Bytes) :
    ∃ n, strspn str off accept = .ok n ∧ off + n ≤ str.length ∧
      (∀ i, off ≤ i → i < off + n → byte str i ≠ 0 ∧ byte str i ∈ accept) ∧
      (byte str (off + n) = 0 ∨ byte str (off + n) ∉ accept) := by
  obtain ⟨h1, h2, _⟩ := span_drop_spec (fun c => c != 0 && accept.contains c) str off h
  have h4 := span_drop_stop (fun c => c != 0 && accept.contains c) (by simp) str off h
  refine ⟨_, by simp [strspn, h], h1, ?_, ?_⟩
  · intro i hi1 hi2
    simpa using h2 i hi1 hi2
  · simp only [Bool.and_eq_false_imp, bne_iff_ne, ne_eq] at h4
    by_cases h5 : byte str (off + spanLen (fun c => c != 0 && accept.contains c) (str.drop off)) = 0
    · exact Or.inl h5
    · right
      simpa using h4 h5

theorem strcspn_spec (str : Bytes) (off : Nat) (h : off ≤ str.length) (reject : Bytes) :
    ∃ n, strcspn str off reject = .ok n ∧ off + n ≤ str.length ∧
      (∀ i, off ≤ i → i < off + n → byte str i ≠ 0 ∧ byte str i ∉ reject) ∧
      (byte str (off + n) = 0 ∨ byte str (off + n) ∈ reject) := by
  obtain ⟨h1, h2, _⟩ := span_drop_spec (fun c => c != 0 && !reject.contains c) str off h
  have h4 := span_drop_stop (fun c => c != 0 && !reject.contains c) (by simp) str off h
  refine ⟨_, by simp [strcspn, h], h1, ?_, ?_⟩
  · intro i hi1 hi2
    simpa using h2 i hi1 hi2
  · simp only [Bool.and_eq_false_imp, bne_iff_ne, ne_eq] at h4
    by_cases h5 : byte str (off + spanLen (fun c => c != 0 && !reject.contains c) (str.drop off)) = 0
    · exact Or.inl h5
    · right
      simpa using h4 h5

theorem skipspaces_spec (str : Bytes) : ∀ (fuel off lineno : Nat), off ≤ str.length →
    str.length - off < fuel → lineno < ULONG_MOD →
    ∃ off' lineno', skipspaces str fuel off lineno = .ok (off', lineno') ∧
      Scan str off lineno off' lineno' ∧
      (∀ i, off ≤ i → i < off' → isWhite (byte str i)) ∧ ¬ isWhite (byte str off') := by
  intro fuel
  induction fuel with
  | zero => intro off lineno _ h; omega
  | succ fuel ih =>
    intro off lineno hoff hfuel hl
    obtain ⟨n, en, h1, h2, h4⟩ := strspn_spec str off hoff spacewhite
    have hwhite : ∀ i, off ≤ i → i < off + n → isWhite (byte str i) := by
      intro i hi1 hi2
      have := h2 i hi1 hi2
      simp [spacewhite] at this
      unfold isWhite; omega
    have hsc : Scan str off lineno (off + n) lineno :=
      Scan.span (by omega) h1 hl (fun i hi1 hi2 => by
        have := h2 i hi1 hi2
        simp [spacewhite] at this
        omega)
    unfold skipspaces
    rw [en, Res.ok_bind, rd_ok h1, Res.ok_bind]
    by_cases hc : byte str (off + n) = 10
    · have hlt : off + n < str.length := byte_lt_of_ne_zero (by omega)
      obtain ⟨o, l, e, hs, hw, hn⟩ := ih (off + n + 1) ((lineno + 1) % ULONG_MOD) hlt
        (by omega) (Nat.mod_lt _ (by decide))
      refine ⟨o, l, ?_, hsc.trans ((Scan.newline hlt hc).trans hs), ?_, hn⟩
      · simp [hc, e]
      · intro i hi1 hi2
        by_cases h5 : i < off + n
        · exact hwhite i hi1 h5
        · by_cases h6 : i = off + n
          · rw [h6, hc]; simp [isWhite]
          · exact hw i (by omega) hi2
    · refine ⟨off + n, lineno, ?_, hsc, hwhite, ?_⟩
      · simp [hc]
      · simp [spacewhite] at h4
        unfold isWhite
        omega

/-! ## The raw-text loop -/

theorem textLoop_spec (str : Bytes) : ∀ (fuel off lineno : Nat), off ≤ str.length →
    str.length - off < fuel → lineno < ULONG_MOD →
    ∃ off' lineno', textLoop str fuel off lineno = .ok (off', lineno') ∧
      Scan str off lineno off' lineno' ∧
      (∀ i, off ≤ i → i < off' → byte str i ≠ 0 ∧ byte str i ≠ 60) ∧
      (byte str off' = 0 ∨ byte str off' = 60) := by
  intro fuel
  induction fuel with
  | zero => intro off lineno _ h; omega
  | succ fuel ih =>
    intro off lineno hoff hfuel hl
    obtain ⟨n, en, h1, h2, h4⟩ := strcspn_spec str off hoff [10, 60]
    have hrun : ∀ i, off ≤ i → i < off + n → byte str i ≠ 0 ∧ byte str i ≠ 60 := by
      intro i hi1 hi2
      have := h2 i hi1 hi2
      simp at this
      omega
    have hsc : Scan str off lineno (off + n) lineno :=
      Scan.span (by omega) h1 hl (fun i hi1 hi2 => by
        have := h2 i hi1 hi2
        simp at this
        omega)
    unfold textLoop
    rw [en, Res.ok_bind, rd_ok h1, Res.ok_bind]
    by_cases hc : byte str (off + n) = 10
    · have hlt : off + n < str.length := byte_lt_of_ne_zero (by omega)
      obtain ⟨o, l, e, hs, hw, hn⟩ := ih (off + n + 1) ((lineno + 1) % ULONG_MOD) hlt
        (by omega) (Nat.mod_lt _ (by decide))
      refine ⟨o, l, ?_, hsc.trans ((Scan.newline hlt hc).trans hs), ?_, hn⟩
      · simp [hc, e]
      · intro i hi1 hi2
        by_cases h5 : i < off + n
        · exact hrun i hi1 h5
        · by_cases h6 : i = off + n
          · rw [h6, hc]; simp
          · exact hw i (by omega) hi2
    · refine ⟨off + n, lineno, ?_, hsc, hrun, ?_⟩
      · simp [hc]
      · simp at h4
        omega

/-! ## The comment loop -/

theorem commentClosed_spec (str : Bytes) (off_start off : Nat) (h : off ≤ str.length) :
    ∃ b, commentClosed str off_start off = .ok b ∧
      (b = true ↔ (off_start + 3 < off ∧ byte str (off - 2) = 45 ∧ byte str (off - 3) = 45)) := by
  unfold commentClosed
  by_cases h1 : off > off_start + 3
  · rw [if_pos h1, rdBack_ok (by omega) (by omega), Res.ok_bind]
    by_cases h2 : byte str (off - 2) = 45
    · rw [rdBack_ok (by omega) (by omega)]
      refine ⟨_, by simp [h2]; rfl, ?_⟩
      simp [h2]; omega
    · exact ⟨false, by simp [h2], by simp [h2]⟩
  · refine ⟨false, by simp [h1], ?_⟩
    simp; omega

theorem commentLoop_spec (str : Bytes) (off_start : Nat) : ∀ (fuel off lineno : Nat),
    off ≤ str.length → str.length - off < fuel → lineno < ULONG_MOD →
    ∃ off' lineno', commentLoop str off_start fuel off lineno = .ok (off', lineno') ∧
      Scan str off lineno off' lineno' ∧
      (∀ j, off ≤ j → j < off' → byte str j ≠ 0) ∧
      ((byte str off' = 0 ∧ ∀ j, off ≤ j → j < off' → ¬ closing str off_start j) ∨
       (off < off' ∧ closing str off_start (off' - 1) ∧
          ∀ j, off ≤ j → j < off' - 1 → ¬ closing str off_start j)) := by
  intro fuel
  induction fuel with
  | zero => intro off lineno _ h; omega
  | succ fuel ih =>
    intro off lineno hoff hfuel hl
    obtain ⟨n, en, h1, h2, h4⟩ := strcspn_spec str off hoff [10, 62]
    have hrun : ∀ i, off ≤ i → i < off + n → byte str i ≠ 0 ∧ byte str i ≠ 62 := by
      intro i hi1 hi2
      have := h2 i hi1 hi2
      simp at this
      omega
    have hsc : Scan str off lineno (off + n) lineno :=
      Scan.span (by omega) h1 hl (fun i hi1 hi2 => by
        have := h2 i hi1 hi2
        simp at this
        omega)
    unfold commentLoop
    rw [en, Res.ok_bind, rd_ok h1, Res.ok_bind]
    by_cases hc : byte str (off + n) = 10
    · -- a newline: count it and go on
      have hlt : off + n < str.length := byte_lt_of_ne_zero (by omega)
      obtain ⟨o, l, e, hs, hw, hn⟩ := ih (off + n + 1) ((lineno + 1) % ULONG_MOD) hlt
        (by omega) (Nat.mod_lt _ (by decide))
      have hno : ∀ j, off ≤ j → j < off + n + 1 → ¬ closing str off_start j := by
        intro j hj1 hj2 hcl
        by_cases h5 : j < off + n
        · exact (hrun j hj1 h5).2 hcl.1
        · have h6 : j = off + n := by omega
          rw [h6] at hcl
          have := hcl.1
          omega
      refine ⟨o, l, by simp [hc, e], hsc.trans ((Scan.newline hlt hc).trans hs), ?_, ?_⟩
      · intro j hj1 hj2
        by_cases h5 : j < off + n
        · exact (hrun j hj1 h5).1
        · by_cases h6 : j = off + n
          · rw [h6, hc]; simp
          · exact hw j (by omega) hj2
      · rcases hn with ⟨hz, hn⟩ | ⟨hlt2, hcl, hn⟩
        · left
          refine ⟨hz, fun j hj1 hj2 => ?_⟩
          by_cases h5 : j < off + n + 1
          · exact hno j hj1 h5
          · exact hn j (by omega) hj2
        · right
          refine ⟨by omega, hcl, fun j hj1 hj2 => ?_⟩
          by_cases h5 : j < off + n + 1
          · exact hno j hj1 h5
          · exact hn j (by omega) hj2
    · by_cases hc2 : byte str (off + n) = 62
      · have hlt : off + n < str.length := byte_lt_of_ne_zero (by omega)
        obtain ⟨b, eb, hb⟩ := commentClosed_spec str off_start (off + n + 1) hlt
        have hsc2 : Scan str off lineno (off + n + 1) lineno :=
          hsc.trans (Scan.other hlt hl hc)
        have hrun0 : ∀ j, off ≤ j → j < off + n + 1 → byte str j ≠ 0 := by
          intro j hj1 hj2
          by_cases h5 : j < off + n
          · exact (hrun j hj1 h5).1
          · have h6 : j = off + n := by omega
            rw [h6]; omega
        have hb2 : b = true ↔ closing str off_start (off + n) := by
          rw [hb]
          unfold closing
          have e1 : off + n + 1 - 2 = off + n - 1 := by omega
          have e2 : off + n + 1 - 3 = off + n - 2 := by omega
          rw [e1, e2]
          constructor
          · rintro ⟨a1, a2, a3⟩; exact ⟨hc2, a1, a2, a3⟩
          · rintro ⟨_, a1, a2, a3⟩; exact ⟨a1, a2, a3⟩
        cases b with
        | true =>
          refine ⟨off + n + 1, lineno, by simp [hc, hc2, eb], hsc2, hrun0, Or.inr ⟨by omega, ?_, ?_⟩⟩
          · exact hb2.1 rfl
          · intro j hj1 hj2 hcl
            exact (hrun j hj1 (by omega)).2 hcl.1
        | false =>
          have hno : ∀ j, off ≤ j → j < off + n + 1 → ¬ closing str off_start j := by
            intro j hj1 hj2 hcl
            by_cases h5 : j < off + n
            · exact (hrun j hj1 h5).2 hcl.1
            · have h6 : j = off + n := by omega
              rw [h6] at hcl
              have := hb2.2 hcl
              simp at this
          obtain ⟨o, l, e, hs, hw, hn⟩ := ih (off + n + 1) lineno hlt (by omega) hl
          refine ⟨o, l, by simp [hc, hc2, eb, e], hsc2.trans hs, ?_, ?_⟩
          · intro j hj1 hj2
            by_cases h5 : j < off + n + 1
            · exact hrun0 j hj1 h5
            · exact hw j (by omega) hj2
          · rcases hn with ⟨hz, hn⟩ | ⟨hlt2, hcl, hn⟩
            · left
              refine ⟨hz, fun j hj1 hj2 => ?_⟩
              by_cases h5 : j < off + n + 1
              · exact hno j hj1 h5
              · exact hn j (by omega) hj2
            · right
              refine ⟨by omega, hcl, fun j hj1 hj2 => ?_⟩
              by_cases h5 : j < off + n + 1
              · exact hno j hj1 h5
              · exact hn j (by omega) hj2
      · have hz : byte str (off + n) = 0 := by
          simp at h4
          omega
        refine ⟨off + n, lineno, by simp [hc, hc2], hsc, fun j hj1 hj2 => (hrun j hj1 hj2).1,
          Or.inl ⟨hz, ?_⟩⟩
        intro j hj1 hj2 hcl
        exact (hrun j hj1 hj2).2 hcl.1

/-! ## Host string copies and the comment tests -/

theorem rb_str_new_ok {str : Bytes} {a b : Nat} (hab : a ≤ b) (hb : b ≤ str.length) :
    rb_str_new str a b = .ok (slice str a b) := by
  unfold rb_str_new slice
  rw [if_neg (by omega), if_pos (by omega), List.drop_append_of_le_length (by omega),
    List.take_append_of_le_length (by rw [List.length_drop]; omega)]

theorem commentStart_spec (str : Bytes) (off : Nat) (h : off ≤ str.length) :
    ∃ b, commentStart str off = .ok b ∧
      (b = true ↔ (byte str off = 33 ∧ byte str (off + 1) = 45 ∧ byte str (off + 2) = 45)) := by
  unfold commentStart
  rw [rd_ok h, Res.ok_bind]
  by_cases h0 : byte str off = 33
  · have hlt0 : off < str.length := byte_lt_of_ne_zero (by omega)
    rw [rd_ok (show off + 1 ≤ str.length by omega)]
    by_cases h1 : byte str (off + 1) = 45
    · have hlt1 : off + 1 < str.length := byte_lt_of_ne_zero (by omega)
      rw [rd_ok (show off + 2 ≤ str.length by omega)]
      exact ⟨_, by simp [h0, h1]; rfl, by simp [h0, h1]⟩
    · exact ⟨false, by simp [h0, h1], by simp [h0, h1]⟩
  · exact ⟨false, by simp [h0], by simp [h0]⟩

theorem commentStrip_spec (str : Bytes) (off : Nat) (h3 : 3 ≤ off) (h : off ≤ str.length) :
    ∃ b, commentStrip str off = .ok b ∧
      (b = true ↔ (byte str (off - 1) = 62 ∧ byte str (off - 2) = 45 ∧ byte str (off - 3) ≠ 0)) := by
  unfold commentStrip
  rw [rdBack_ok (by omega) (by omega), Res.ok_bind, rdBack_ok (by omega) (by omega),
    rdBack_ok (by omega) (by omega)]
  by_cases h0 : byte str (off - 1) = 62
  · by_cases h1 : byte str (off - 2) = 45
    · exact ⟨_, by simp [h0, h1]; rfl, by simp [h0, h1]⟩
    · exact ⟨false, by simp [h0, h1], by simp [h0, h1]⟩
  · exact ⟨false, by simp [h0], by simp [h0]⟩

/-! ## Attribute values -/

theorem quoted_scan (str : Bytes) (sep off lineno : Nat) (hoff : off ≤ str.length) :
    Scan str off lineno (off + spanLen (fun c => c != sep) (str.drop off))
      ((lineno + ((str.drop off).take (spanLen (fun c => c != sep) (str.drop off))).count 10)
        % ULONG_MOD) := by
  obtain ⟨h1, _, _⟩ := span_drop_spec (fun c => c != sep) str off hoff
  refine ⟨by omega, h1, ?_⟩
  unfold nlRange slice
  have : off + spanLen (fun c => c != sep) (str.drop off) - off
      = spanLen (fun c => c != sep) (str.drop off) := by omega
  rw [this]

theorem attrValue_spec (str name attrname : Bytes) (off lineno : Nat) (hoff : off ≤ str.length)
    (hl : lineno < ULONG_MOD) :
    (∃ v off' lineno', attrValue str (str.length + 1) name attrname off lineno
        = .ok (v, off', lineno') ∧ Scan str off lineno off' lineno') ∨
    (∃ o l, attrValue str (str.length + 1) name attrname off lineno
        = do_raise (msgUnclosedQuote name attrname) o l ∧ o ≤ str.length) := by
  unfold attrValue
  rw [rd_ok hoff, Res.ok_bind]
  by_cases hc : byte str off = 61
  · have hlt : off < str.length := byte_lt_of_ne_zero (by omega)
    obtain ⟨o1, l1, e1, hs1, _, _⟩ := skipspaces_spec str (str.length + 1) (off + 1) lineno hlt
      (by omega) hl
    have hs01 : Scan str off lineno o1 l1 := (Scan.other hlt hl (by omega)).trans hs1
    rw [if_pos (by simp [hc]), e1, Res.ok_bind]
    dsimp only
    rw [rd_ok hs1.2.1, Res.ok_bind]
    by_cases hq : byte str o1 = 34 ∨ byte str o1 = 39
    · have hlt1 : o1 < str.length := byte_lt_of_ne_zero (by omega)
      rw [if_pos (by simpa using hq)]
      have hs2 := quoted_scan str (byte str o1) (o1 + 1) l1 hlt1
      have hs12 : Scan str o1 l1 _ _ := (Scan.other hlt1 hs1.lt (by omega)).trans hs2
      rw [rd_ok hs2.2.1, Res.ok_bind]
      by_cases hend : byte str (o1 + 1 + spanLen (fun c => c != byte str o1) (str.drop (o1 + 1)))
          = byte str o1
      · have hlt2 : o1 + 1 + spanLen (fun c => c != byte str o1) (str.drop (o1 + 1)) < str.length :=
          byte_lt_of_ne_zero (by omega)
        left
        rw [if_neg (by simp [hend]), rb_str_new_ok hs2.1 hs2.2.1, Res.ok_bind]
        refine ⟨_, _, _, rfl, hs01.trans (hs12.trans (Scan.other hlt2 hs2.lt ?_))⟩
        omega
      · right
        rw [if_pos (by simpa using hend)]
        exact ⟨_, _, rfl, hs2.2.1⟩
    · left
      rw [if_neg (by simpa using hq)]
      obtain ⟨n, en, h1, h2, _⟩ := strcspn_spec str o1 hs1.2.1 wstagname
      rw [en, Res.ok_bind, rb_str_new_ok (by omega) h1, Res.ok_bind]
      refine ⟨_, _, _, rfl, hs01.trans (Scan.span (by omega) h1 hs1.lt ?_)⟩
      intro i hi1 hi2
      have := h2 i hi1 hi2
      simp [wstagname] at this
      omega
  · left
    rw [if_neg (by simp [hc])]
    exact ⟨_, _, _, rfl, Scan.refl str hoff hl⟩

/-! ## One turn of the attribute loop -/

theorem tagLoop_zero (decode : Bytes → Bytes) (str : Bytes) (off lineno : Nat) (t : Tag) :
    tagLoop decode str 0 off lineno t = .stop .nofuel := rfl

theorem tagLoop_exit (decode : Bytes → Bytes) (str : Bytes) (fuel off lineno : Nat) (t : Tag)
    (h : str.length ≤ off ∨ byte str off = 62) :
    tagLoop decode str (fuel + 1) off lineno t = .ok (off, lineno, t) := by
  rw [tagLoop]
  have : (decide (off < str.length) && byte str off != 62) = false := by
    rcases h with h | h
    · simp; intro h2; omega
    · simp [h]
  rw [this]
  rfl

theorem spanLen_pos (p : Nat → Bool) (str : Bytes) (off : Nat) (h : off < str.length)
    (hp : p (byte str off) = true) : 0 < spanLen p (str.drop off) := by
  rw [List.drop_eq_getElem_cons h, spanLen_cons, ← byte_eq_getElem h, hp]
  simp

theorem isAlpha_attrNameChar (c : Nat) (h : isAlpha c = true) : attrNameChar c = true := by
  unfold isAlpha at h
  unfold attrNameChar
  simp only [Bool.or_eq_true] at h ⊢
  tauto

theorem tagLoop_step (decode : Bytes → Bytes) (str : Bytes) (fuel off lineno : Nat) (t : Tag)
    (hoff : off < str.length) (hb : byte str off ≠ 62) (hl : lineno < ULONG_MOD) :
    ∃ o1 l1, skipspaces str (str.length + 1) off lineno = .ok (o1, l1) ∧
      Scan str off lineno o1 l1 ∧ (∀ i, off ≤ i → i < o1 → isWhite (byte str i)) ∧
      ¬ isWhite (byte str o1) ∧
      ((byte str o1 = 62 ∧
          tagLoop decode str (fuel + 1) off lineno t = tagLoop decode str fuel o1 l1 t) ∨
       (byte str o1 = 47 ∧ ∃ o2 l2, skipspaces str (str.length + 1) (o1 + 1) l1 = .ok (o2, l2) ∧
          Scan str o1 l1 o2 l2 ∧ o1 < o2 ∧ (∀ i, o1 < i → i < o2 → isWhite (byte str i)) ∧
          ((byte str o2 ≠ 62 ∧ tagLoop decode str (fuel + 1) off lineno t
              = do_raise (msgExpectedClose t.name) o2 l2) ∨
           (byte str o2 = 62 ∧ tagLoop decode str (fuel + 1) off lineno t
              = tagLoop decode str fuel o2 l2 { t with uniq := true }))) ∨
       (byte str o1 = 63 ∧
          ((byte t.name 0 ≠ 63 ∧ tagLoop decode str (fuel + 1) off lineno t
              = do_raise (msgInvalidQuestion t.name) o1 l1) ∨
           (byte t.name 0 = 63 ∧ tagLoop decode str (fuel + 1) off lineno t
              = tagLoop decode str fuel (o1 + 1) l1 t))) ∨
       (isAlpha (byte str o1) = true ∧ ∃ o2 o3 l3,
          o2 = o1 + spanLen attrNameChar (str.drop o1) ∧ o1 < o2 ∧ o2 ≤ str.length ∧
          skipspaces str (str.length + 1) o2 l1 = .ok (o3, l3) ∧ o2 ≤ o3 ∧
          Scan str o1 l1 o3 l3 ∧
          ((∃ o l, attrValue str (str.length + 1) t.name (slice str o1 o2) o3 l3
                = do_raise (msgUnclosedQuote t.name (slice str o1 o2)) o l ∧ o ≤ str.length ∧
              tagLoop decode str (fuel + 1) off lineno t
                = do_raise (msgUnclosedQuote t.name (slice str o1 o2)) o l) ∨
           (∃ v o4 l4, attrValue str (str.length + 1) t.name (slice str o1 o2) o3 l3
                = .ok (v, o4, l4) ∧ Scan str o3 l3 o4 l4 ∧
              tagLoop decode str (fuel + 1) off lineno t
                = tagLoop decode str fuel o4 l4
                    { t with attrs := t.attrs ++ [(slice str o1 o2, decode v)] }))) ∨
       (byte str o1 ≠ 62 ∧ byte str o1 ≠ 47 ∧ byte str o1 ≠ 63 ∧ isAlpha (byte str o1) = false ∧
          tagLoop decode str (fuel + 1) off lineno t
            = do_raise (msgInvalidAttribute t.name) o1 l1)) := by
  obtain ⟨o1, l1, e1, hs1, hw1, hn1⟩ :=
    skipspaces_spec str (str.length + 1) off lineno (Nat.le_of_lt hoff) (by omega) hl
  refine ⟨o1, l1, e1, hs1, hw1, hn1, ?_⟩
  generalize hr : tagLoop decode str (fuel + 1) off lineno t = r
  rw [tagLoop] at hr
  have hcond : (decide (off < str.length) && byte str off != 62) = true := by
    simp [hoff, hb]
  rw [if_pos hcond, e1, Res.ok_bind] at hr
  try dsimp only at hr
  rw [rd_ok hs1.2.1, Res.ok_bind] at hr
  by_cases c1 : byte str o1 = 62
  · left
    rw [if_pos (by simp [c1])] at hr
    exact ⟨c1, hr.symm⟩
  rw [if_neg (by simp [c1])] at hr
  right
  by_cases c2 : byte str o1 = 47
  · left
    have hlt : o1 < str.length := byte_lt_of_ne_zero (by omega)
    obtain ⟨o2, l2, e2, hs2, hw2, _⟩ :=
      skipspaces_spec str (str.length + 1) (o1 + 1) l1 hlt (by omega) hs1.lt
    rw [if_pos (by simp [c2]), e2, Res.ok_bind] at hr
    try dsimp only at hr
    rw [rd_ok hs2.2.1, Res.ok_bind] at hr
    refine ⟨c2, o2, l2, e2, (Scan.other hlt hs1.lt (by omega)).trans hs2, hs2.1,
      fun i hi1 hi2 => hw2 i hi1 hi2, ?_⟩
    by_cases c3 : byte str o2 = 62
    · right
      rw [if_neg (by simp [c3])] at hr
      exact ⟨c3, hr.symm⟩
    · left
      rw [if_pos (by simpa using c3)] at hr
      exact ⟨c3, hr.symm⟩
  rw [if_neg (by simp [c2])] at hr
  right
  by_cases c3 : byte str o1 = 63
  · left
    rw [if_pos (by simp [c3])] at hr
    refine ⟨c3, ?_⟩
    by_cases c4 : byte t.name 0 = 63
    · right
      rw [if_neg (by simp [c4])] at hr
      exact ⟨c4, hr.symm⟩
    · left
      rw [if_pos (by simpa using c4)] at hr
      exact ⟨c4, hr.symm⟩
  rw [if_neg (by simp [c3])] at hr
  right
  by_cases c4 : isAlpha (byte str o1) = true
  · left
    have hlt : o1 < str.length := byte_lt_of_ne_zero (by
      intro h0
      rw [h0] at c4
      simp [isAlpha] at c4)
    have hpos := spanLen_pos attrNameChar str o1 hlt (isAlpha_attrNameChar _ c4)
    obtain ⟨hle, hall, _⟩ := span_drop_spec attrNameChar str o1 (Nat.le_of_lt hlt)
    have hs12 : Scan str o1 l1 (o1 + spanLen attrNameChar (str.drop o1)) l1 :=
      Scan.span (by omega) hle hs1.lt (fun i hi1 hi2 h10 => by
        have := hall i hi1 hi2
        rw [h10] at this
        simp [attrNameChar] at this)
    obtain ⟨o3, l3, e3, hs3, _, _⟩ :=
      skipspaces_spec str (str.length + 1) (o1 + spanLen attrNameChar (str.drop o1)) l1 hle
        (by omega) hs1.lt
    rw [if_pos c4] at hr
    try dsimp only at hr
    rw [rb_str_new_ok (by omega) hle, Res.ok_bind, e3, Res.ok_bind] at hr
    try dsimp only at hr
    refine ⟨c4, _, o3, l3, rfl, by omega, hle, e3, hs3.1, hs12.trans hs3, ?_⟩
    rcases attrValue_spec str t.name (slice str o1 (o1 + spanLen attrNameChar (str.drop o1)))
      o3 l3 hs3.2.1 hs3.lt with ⟨v, o4, l4, e4, hs4⟩ | ⟨o, l, e4, ho⟩
    · right
      rw [e4, Res.ok_bind] at hr
      exact ⟨v, o4, l4, e4, hs4, hr.symm⟩
    · left
      rw [e4] at hr
      exact ⟨o, l, e4, ho, hr.symm⟩
  · right
    rw [if_neg c4] at hr
    exact ⟨c1, c2, c3, by simpa using c4, hr.symm⟩

/-! ## The attribute loop as a whole -/

theorem TagLoopPost.mono {str : Bytes} {off lineno off2 l2 : Nat} {t t2 : Tag}
    {r : Res (Nat × Nat × Tag)} (hs : Scan str off lineno off2 l2) (hn : t2.name = t.name)
    (hu : t2.uniq = true → t.uniq = true) (h : TagLoopPost str off2 l2 t2 r) :
    TagLoopPost str off lineno t r := by
  match r, h with
  | .ok (off', l', t'), h =>
    obtain ⟨h1, h2, h3, h4⟩ := h
    refine ⟨hs.trans h1, h2.trans hn, h3, fun hu' => ?_⟩
    rcases h4 hu' with h5 | ⟨i, hi1, hi2, hi3, hi4⟩
    · exact Or.inl (hu h5)
    · exact Or.inr ⟨i, Nat.le_trans hs.1 hi1, hi2, hi3, hi4⟩
  | .stop (.raised _ o _), h => exact h

theorem tagLoop_spec (decode : Bytes → Bytes) (str : Bytes) : ∀ (fuel off lineno : Nat) (t : Tag),
    off ≤ str.length → lineno < ULONG_MOD →
    (str.length - off < fuel ∨ (0 < fuel ∧ (str.length ≤ off ∨ byte str off = 62))) →
    TagLoopPost str off lineno t (tagLoop decode str fuel off lineno t) := by
  intro fuel
  induction fuel with
  | zero => intro off lineno t _ _ h; omega
  | succ fuel ih =>
    intro off lineno t hoff hl hfuel
    by_cases hexit : str.length ≤ off ∨ byte str off = 62
    · rw [tagLoop_exit decode str fuel off lineno t hexit]
      exact ⟨Scan.refl str hoff hl, rfl, hexit, fun h => Or.inl h⟩
    · have hlt : off < str.length := by omega
      have hb : byte str off ≠ 62 := fun h => hexit (Or.inr h)
      have hf : str.length - off < fuel + 1 := by
        rcases hfuel with h | ⟨_, h⟩
        · exact h
        · exact absurd h hexit
      obtain ⟨o1, l1, _, hs1, _, _, hcase⟩ := tagLoop_step decode str fuel off lineno t hlt hb hl
      rcases hcase with ⟨c1, e⟩ | ⟨c2, o2, l2, _, hs2, hlt2, hw2, hcase2⟩ | ⟨c3, hcase3⟩ |
        ⟨c4, o2, o3, l3, _, hlt2, _, _, h23, hs3, hcase4⟩ | ⟨_, _, _, _, e⟩
      · rw [e]
        exact (ih o1 l1 t hs1.2.1 hs1.lt (Or.inr ⟨by omega, Or.inr c1⟩)).mono hs1 rfl id
      · rcases hcase2 with ⟨_, e⟩ | ⟨c5, e⟩
        · rw [e]; exact hs2.2.1
        · rw [e]
          obtain ⟨f, hf2⟩ : ∃ f, fuel = f + 1 := ⟨fuel - 1, by omega⟩
          rw [hf2, tagLoop_exit decode str f o2 l2 _ (Or.inr c5)]
          refine ⟨hs1.trans hs2, rfl, Or.inr c5, fun _ => Or.inr ⟨o1, hs1.1, hlt2, c2, hw2⟩⟩
      · rcases hcase3 with ⟨_, e⟩ | ⟨_, e⟩
        · rw [e]; exact hs1.2.1
        · rw [e]
          have hlt1 : o1 < str.length := byte_lt_of_ne_zero (by omega)
          have hs' : Scan str off lineno (o1 + 1) l1 :=
            hs1.trans (Scan.other hlt1 hs1.lt (by omega))
          exact (ih (o1 + 1) l1 t hlt1 hs1.lt (Or.inl (by have := hs1.1; omega))).mono hs' rfl id
      · rcases hcase4 with ⟨o, l, _, ho, e⟩ | ⟨v, o4, l4, _, hs4, e⟩
        · rw [e]; exact ho
        · rw [e]
          have hs' : Scan str off lineno o4 l4 := hs1.trans (hs3.trans hs4)
          have h1 := hs1.1
          have h3 := hs3.1
          have h4 := hs4.1
          have h5 := hs4.2.1
          exact (ih o4 l4 _ hs4.2.1 hs4.lt (Or.inl (by omega))).mono hs' rfl id
      · rw [e]; exact hs1.2.1

/-! ## The entry point, path by path -/

theorem parse_text (decode : Bytes → Bytes) (str : Bytes) (off lineno : Nat)
    (hoff : off ≤ str.length) (hl : lineno < ULONG_MOD) (hc : byte str off ≠ 60) :
    ∃ o l, textLoop str (str.length + 1) off lineno = .ok (o, l) ∧ Scan str off lineno o l ∧
      (∀ i, off ≤ i → i < o → byte str i ≠ 0 ∧ byte str i ≠ 60) ∧
      (byte str o = 0 ∨ byte str o = 60) ∧
      rbxml_parse_element decode str off lineno = .ok (.text (decode (slice str off o)), o, l) := by
  obtain ⟨o, l, e, hs, h1, h2⟩ := textLoop_spec str (str.length + 1) off lineno hoff (by omega) hl
  refine ⟨o, l, e, hs, h1, h2, ?_⟩
  unfold rbxml_parse_element
  rw [rd_ok hoff, Res.ok_bind, if_neg (by simpa using hc), e, Res.ok_bind]
  try dsimp only
  rw [rb_str_new_ok hs.1 hs.2.1, Res.ok_bind]
  rfl

theorem parse_open (decode : Bytes → Bytes) (str : Bytes) (off lineno : Nat)
    (hoff : off ≤ str.length) (hl : lineno < ULONG_MOD) (hc : byte str off = 60) :
    ∃ o1 l1 o2, skipspaces str (str.length + 1) (off + 1) lineno = .ok (o1, l1) ∧
      off < o1 ∧ (∀ i, off < i → i < o1 → isWhite (byte str i)) ∧ ¬ isWhite (byte str o1) ∧
      o1 ≤ o2 ∧ Scan str off lineno o2 l1 ∧
      (∀ i, (if byte str o1 = 47 then o1 + 1 else o1) ≤ i → i < o2 →
        byte str i ≠ 0 ∧ byte str i ∉ wstagname) ∧
      (if byte str o1 = 47 then o1 + 1 else o1) ≤ o2 ∧
      (byte str o2 = 0 ∨ byte str o2 ∈ wstagname) ∧
      ((byte str o1 = 33 ∧ byte str (o1 + 1) = 45 ∧ byte str (o1 + 2) = 45 ∧ o1 + 3 ≤ o2 ∧
          ∃ o3 l3, commentLoop str (o1 + 3) (str.length + 1) o2 l1 = .ok (o3, l3) ∧
            Scan str o2 l1 o3 l3 ∧ (∀ j, o2 ≤ j → j < o3 → byte str j ≠ 0) ∧
            ((byte str o3 = 0 ∧ ∀ j, o2 ≤ j → j < o3 → ¬ closing str (o1 + 3) j) ∨
              (o2 < o3 ∧ closing str (o1 + 3) (o3 - 1) ∧
                ∀ j, o2 ≤ j → j < o3 - 1 → ¬ closing str (o1 + 3) j)) ∧
            ((¬ (byte str (o3 - 1) = 62 ∧ byte str (o3 - 2) = 45 ∧ byte str (o3 - 3) ≠ 0) ∧
                rbxml_parse_element decode str off lineno
                  = .ok (.comment (slice str (o1 + 3) o3), o3, l3)) ∨
             ((byte str (o3 - 1) = 62 ∧ byte str (o3 - 2) = 45 ∧ byte str (o3 - 3) ≠ 0) ∧
                o1 + 6 ≤ o3 ∧
                rbxml_parse_element decode str off lineno
                  = .ok (.comment (slice str (o1 + 3) (o3 - 3)), o3, l3)) ∨
             ((byte str (o3 - 1) = 62 ∧ byte str (o3 - 2) = 45 ∧ byte str (o3 - 3) ≠ 0) ∧
                o3 < o1 + 6 ∧
                rbxml_parse_element decode str off lineno = .stop .badlen))) ∨
       (¬ (byte str o1 = 33 ∧ byte str (o1 + 1) = 45 ∧ byte str (o1 + 2) = 45) ∧
          (∀ o l t, tagLoop decode str (str.length + 1) o2 l1 ⟨slice str o1 o2, [], false⟩
              = .ok (o, l, t) →
            (byte str o = 62 → rbxml_parse_element decode str off lineno = .ok (.tag t, o + 1, l)) ∧
            (byte str o ≠ 62 → rbxml_parse_element decode str off lineno
              = do_raise (msgUnclosedTag t.name) o l)) ∧
          (∀ s, tagLoop decode str (str.length + 1) o2 l1 ⟨slice str o1 o2, [], false⟩
              = .stop s → rbxml_parse_element decode str off lineno = .stop s))) := by
  have hlt : off < str.length := byte_lt_of_ne_zero (by omega)
  obtain ⟨o1, l1, e1, hs1, hw1, hn1⟩ :=
    skipspaces_spec str (str.length + 1) (off + 1) lineno hlt (by omega) hl
  have ho1 := hs1.2.1
  have ho1' := hs1.1
  have hsel : (if byte str o1 = 47 then o1 + 1 else o1) ≤ str.length := by
    split
    · rename_i h47
      have : o1 < str.length := byte_lt_of_ne_zero (by omega)
      omega
    · exact ho1
  have hsel2 : o1 ≤ (if byte str o1 = 47 then o1 + 1 else o1) := by split <;> omega
  obtain ⟨n, en, hn1', hn2, hn3⟩ :=
    strcspn_spec str (if byte str o1 = 47 then o1 + 1 else o1) hsel wstagname
  have hs01 : Scan str off lineno o1 l1 := (Scan.other hlt hl (by omega)).trans hs1
  have hs12 : Scan str o1 l1 ((if byte str o1 = 47 then o1 + 1 else o1) + n) l1 := by
    refine Scan.span (by omega) hn1' hs1.lt ?_
    intro i hi1 hi2 h10
    by_cases h5 : (if byte str o1 = 47 then o1 + 1 else o1) ≤ i
    · have := (hn2 i h5 hi2).2
      rw [h10] at this
      simp [wstagname] at this
    · have h6 : i = o1 := by
        split at h5 <;> omega
      rw [h6] at h10
      rw [h10] at h5
      simp at h5
      omega
  refine ⟨o1, l1, (if byte str o1 = 47 then o1 + 1 else o1) + n, e1, by omega,
    fun i hi1 hi2 => hw1 i hi1 hi2, hn1, by omega, hs01.trans hs12, hn2, by omega, hn3, ?_⟩
  generalize hr : rbxml_parse_element decode str off lineno = r
  unfold rbxml_parse_element at hr
  rw [rd_ok hoff, Res.ok_bind, if_pos (by simp [hc]), e1, Res.ok_bind] at hr
  try dsimp only at hr
  rw [rd_ok ho1, Res.ok_bind] at hr
  have hselb : (if (byte str o1 == 47) = true then o1 + 1 else o1)
      = (if byte str o1 = 47 then o1 + 1 else o1) := by
    by_cases h : byte str o1 = 47 <;> simp [h]
  simp only [hselb] at hr
  rw [en, Res.ok_bind] at hr
  obtain ⟨b, eb, hb⟩ := commentStart_spec str o1 ho1
  rw [eb, Res.ok_bind] at hr
  cases b with
  | true =>
    left
    obtain ⟨c0, c1, c2⟩ := hb.1 rfl
    have hsel3 : (if byte str o1 = 47 then o1 + 1 else o1) = o1 := by simp [c0]
    rw [hsel3] at hr hn3 hn1' hn2 ⊢
    have hn3le : 3 ≤ n := by
      by_contra hcon
      have h012 : n = 0 ∨ n = 1 ∨ n = 2 := by omega
      rcases h012 with h | h | h <;> subst h <;> simp [wstagname] at hn3 <;> omega
    obtain ⟨o3, l3, e3, hs3, hz3, hcl3⟩ :=
      commentLoop_spec str (o1 + 3) (str.length + 1) (o1 + n) l1 hn1' (by omega) hs1.lt
    have ho3 := hs3.1
    have ho3' := hs3.2.1
    obtain ⟨b2, eb2, hb2⟩ := commentStrip_spec str o3 (by omega) ho3'
    rw [if_pos rfl, e3, Res.ok_bind] at hr
    try dsimp only at hr
    rw [eb2, Res.ok_bind] at hr
    refine ⟨c0, c1, c2, by omega, o3, l3, e3, hs3, hz3, hcl3, ?_⟩
    cases b2 with
    | false =>
      left
      rw [if_neg (by simp), rb_str_new_ok (by omega) ho3', Res.ok_bind] at hr
      refine ⟨fun h => ?_, hr.symm⟩
      have := hb2.2 h
      simp at this
    | true =>
      right
      have hcond := hb2.1 rfl
      rw [if_pos rfl] at hr
      by_cases h6 : o1 + 6 ≤ o3
      · left
        rw [rb_str_new_ok (by omega) (by omega), Res.ok_bind] at hr
        exact ⟨hcond, h6, hr.symm⟩
      · right
        unfold rb_str_new at hr
        rw [if_pos (by omega)] at hr
        exact ⟨hcond, by omega, hr.symm⟩
  | false =>
    right
    have hnc : ¬ (byte str o1 = 33 ∧ byte str (o1 + 1) = 45 ∧ byte str (o1 + 2) = 45) := by
      intro h
      have := hb.2 h
      simp at this
    rw [if_neg (by simp), rb_str_new_ok (by omega) hn1', Res.ok_bind, tagRest] at hr
    refine ⟨hnc, ?_, ?_⟩
    · intro o l t e
      have hpost := tagLoop_spec decode str (str.length + 1) _ l1
        ⟨slice str o1 ((if byte str o1 = 47 then o1 + 1 else o1) + n), [], false⟩ hn1' hs1.lt
        (Or.inl (by omega))
      rw [e] at hpost
      have hle := hpost.1.2.1
      rw [e, Res.ok_bind] at hr
      try dsimp only at hr
      rw [rd_ok hle, Res.ok_bind] at hr
      constructor
      · intro h62
        rw [if_neg (by simp [h62])] at hr
        exact hr.symm
      · intro h62
        rw [if_pos (by simpa using h62)] at hr
        exact hr.symm
    · intro s e
      rw [e] at hr
      exact hr.symm

theorem parse_post (decode : Bytes → Bytes) (str : Bytes) (off lineno : Nat)
    (hoff : off ≤ str.length) (hl : lineno < ULONG_MOD) :
    ParsePost str off lineno (rbxml_parse_element decode str off lineno) := by
  by_cases hc : byte str off = 60
  · obtain ⟨o1, l1, o2, _, h01, _, _, h12, hs2, _, _, _, hcase⟩ :=
      parse_open decode str off lineno hoff hl hc
    rcases hcase with ⟨_, _, _, _, o3, l3, _, hs3, _, _, hres⟩ | ⟨_, hok, hstop⟩
    · have h23 := hs3.1
      rcases hres with ⟨_, e⟩ | ⟨_, _, e⟩ | ⟨_, _, e⟩
      · rw [e]
        exact ⟨hs2.trans hs3, fun _ => by omega, fun t ht => by cases ht⟩
      · rw [e]
        exact ⟨hs2.trans hs3, fun _ => by omega, fun t ht => by cases ht⟩
      · rw [e]
        exact hc
    · have hpost := tagLoop_spec decode str (str.length + 1) o2 l1 ⟨slice str o1 o2, [], false⟩
        hs2.2.1 hs2.lt (Or.inl (by omega))
      generalize hr : tagLoop decode str (str.length + 1) o2 l1 ⟨slice str o1 o2, [], false⟩ = r
        at hpost
      match r, hpost with
      | .ok (o, l, t), hpost =>
        obtain ⟨hs, _, _, _⟩ := hpost
        have h2o := hs.1
        by_cases h62 : byte str o = 62
        · rw [(hok o l t hr).1 h62]
          have hlt : o < str.length := byte_lt_of_ne_zero (by omega)
          refine ⟨hs2.trans (hs.trans (Scan.other hlt hs.lt (by omega))), fun _ => by omega, ?_⟩
          intro t' _
          exact ⟨by omega, by simpa using h62⟩
        · rw [(hok o l t hr).2 h62]
          exact hs.2.1
      | .stop (.raised m o l), hpost =>
        rw [hstop _ hr]
        exact hpost
  · obtain ⟨o, l, _, hs, hrun, hstop, e⟩ := parse_text decode str off lineno hoff hl hc
    rw [e]
    refine ⟨hs, fun h0 => ?_, fun t ht => by cases ht⟩
    have := hs.1
    by_contra hcon
    have heq : o = off := by omega
    rw [heq] at hstop
    omega

theorem parse_oob (decode : Bytes → Bytes) (str : Bytes) (off lineno : Nat)
    (h : str.length < off) : rbxml_parse_element decode str off lineno = .stop .oob := by
  unfold rbxml_parse_element rd
  rw [if_neg (by omega)]
  rfl

theorem first_nonwhite_unique (str : Bytes) (a o o' : Nat)
    (h1 : ∀ i, a ≤ i → i < o → isWhite (byte str i)) (h2 : ¬ isWhite (byte str o))
    (h1' : ∀ i, a ≤ i → i < o' → isWhite (byte str i)) (h2' : ¬ isWhite (byte str o'))
    (ha : a ≤ o) (ha' : a ≤ o') : o = o' := by
  rcases Nat.lt_trichotomy o o' with h | h | h
  · exact absurd (h1' o ha h) h2
  · exact h
  · exact absurd (h1 o' ha' h) h2'

/-! ## Evaluation on buffers of a known shape -/

theorem first_unique (P : Nat → Prop) (a o o' : Nat)
    (h1 : ∀ i, a ≤ i → i < o → ¬ P i) (h2 : P o)
    (h1' : ∀ i, a ≤ i → i < o' → ¬ P i) (h2' : P o')
    (ha : a ≤ o) (ha' : a ≤ o') : o = o' := by
  rcases Nat.lt_trichotomy o o' with h | h | h
  · exact absurd h2 (h1' o ha h)
  · exact h
  · exact absurd h2' (h1 o' ha' h)

theorem skipspaces_eq (str : Bytes) (fuel off lineno o : Nat) (hfuel : str.length - off < fuel)
    (hoff : off ≤ o) (ho : o ≤ str.length) (hl : lineno < ULONG_MOD)
    (hw : ∀ i, off ≤ i → i < o → isWhite (byte str i)) (hn : ¬ isWhite (byte str o)) :
    skipspaces str fuel off lineno = .ok (o, (lineno + nlRange str off o) % ULONG_MOD) := by
  obtain ⟨o', l', e, hs, hw', hn'⟩ :=
    skipspaces_spec str fuel off lineno (Nat.le_trans hoff ho) hfuel hl
  have : o' = o := first_nonwhite_unique str off o' o hw' hn' hw hn hs.1 hoff
  subst this
  rw [e, hs.2.2]

theorem skipspaces_here (str : Bytes) (fuel off lineno : Nat) (hoff : off ≤ str.length)
    (hn : ¬ isWhite (byte str off)) :
    skipspaces str (fuel + 1) off lineno = .ok (off, lineno) := by
  unfold skipspaces
  obtain ⟨n, en, h1, h2, h4⟩ := strspn_spec str off hoff spacewhite
  have hn0 : n = 0 := by
    by_contra h
    have := (h2 off (Nat.le_refl _) (by omega)).2
    simp [spacewhite] at this
    exact hn (by unfold isWhite; omega)
  subst hn0
  rw [en, Res.ok_bind, Nat.add_zero, rd_ok hoff, Res.ok_bind, if_pos]
  · rfl
  · simp only [bne_iff_ne, ne_eq]
    intro h
    exact hn (Or.inr (Or.inr (Or.inr h)))

theorem span_drop_eq (p : Nat → Bool) (str : Bytes) (off o : Nat) (hoff : off ≤ o)
    (ho : o ≤ str.length) (hall : ∀ i, off ≤ i → i < o → p (byte str i) = true)
    (hstop : o < str.length → p (byte str o) = false) :
    spanLen p (str.drop off) = o - off := by
  apply spanLen_unique
  · rw [List.length_drop]; omega
  · intro i hi
    rw [byte_drop]
    exact hall _ (by omega) (by omega)
  · intro hi
    rw [List.length_drop] at hi
    rw [byte_drop]
    have : off + (o - off) = o := by omega
    rw [this]
    exact hstop (by omega)

theorem strcspn_eq (str : Bytes) (off o : Nat) (reject : Bytes) (hoff : off ≤ o)
    (ho : o ≤ str.length)
    (hall : ∀ i, off ≤ i → i < o → byte str i ≠ 0 ∧ byte str i ∉ reject)
    (hstop : byte str o = 0 ∨ byte str o ∈ reject) :
    strcspn str off reject = .ok (o - off) := by
  unfold strcspn
  rw [if_pos (Nat.le_trans hoff ho), span_drop_eq _ str off o hoff ho]
  · intro i h1 h2
    have := hall i h1 h2
    simp [this.1, this.2]
  · intro _
    rcases hstop with h | h
    · simp [h]
    · simp [h]

/-! ### Views of the bytes ahead of the cursor -/

theorem drop_head {str : Bytes} {off c : Nat} {R : Bytes} (h : str.drop off = c :: R) :
    off < str.length ∧ byte str off = c ∧ str.drop (off + 1) = R := by
  have hlt : off < str.length := by
    by_contra hc
    rw [List.drop_eq_nil_of_le (Nat.le_of_not_lt hc)] at h
    cases h
  refine ⟨hlt, ?_, ?_⟩
  · have := byte_drop str off 0
    rw [h] at this
    simpa using this.symm
  · have := List.drop_drop 1 off str
    rw [h] at this
    simpa using this.symm

theorem drop_run {str : Bytes} {off : Nat} {a R : Bytes} (h : str.drop off = a ++ R)
    (hoff : off ≤ str.length) :
    off + a.length ≤ str.length ∧ str.drop (off + a.length) = R ∧
    slice str off (off + a.length) = a ∧
    (∀ i, off ≤ i → i < off + a.length → byte str i ∈ a) ∧
    (∀ i, i < a.length → byte str (off + i) = byte a i) := by
  have hlen : (str.drop off).length = a.length + R.length := by rw [h]; simp
  rw [List.length_drop] at hlen
  have hle : off + a.length ≤ str.length := by omega
  refine ⟨hle, ?_, ?_, ?_, ?_⟩
  · have := List.drop_drop a.length off str
    rw [h, List.drop_left] at this
    exact this.symm
  · unfold slice
    have e : off + a.length - off = a.length := by omega
    rw [h, e, List.take_left]
  · intro i hi1 hi2
    have := byte_drop str off (i - off)
    have e : off + (i - off) = i := by omega
    rw [e, h, byte_append_left R (by omega)] at this
    rw [← this]
    exact byte_mem (by omega)
  · intro i hi
    rw [← byte_drop, h, byte_append_left R hi]

theorem drop_end {str : Bytes} {off : Nat} (h : str.drop off = []) (hoff : off ≤ str.length) :
    off = str.length := by
  have := congrArg List.length h
  simp at this
  omega

/-! ### One attribute -/

theorem isAlpha_bounds (c : Nat) (h : isAlpha c = true) : 65 ≤ c ∧ c ≤ 122 := by
  unfold isAlpha at h
  simp only [Bool.or_eq_true, Bool.and_eq_true, decide_eq_true_eq] at h
  omega

theorem attrValue_bare (str : Bytes) (fuel : Nat) (name attrname : Bytes) (off lineno : Nat)
    (hoff : off ≤ str.length) (hc : byte str off ≠ 61) :
    attrValue str fuel name attrname off lineno = .ok (attrname, off, lineno) := by
  unfold attrValue
  rw [rd_ok hoff, Res.ok_bind, if_neg (by simpa using hc)]
  rfl

theorem attrValue_quoted (str name attrname : Bytes) (off lineno o4 e q : Nat)
    (hc : byte str off = 61) (h4 : off < o4) (hw : ∀ i, off < i → i < o4 → isWhite (byte str i))
    (hq : byte str o4 = q) (hq' : q = 34 ∨ q = 39) (h4e : o4 < e) (he : e ≤ str.length)
    (hv : ∀ i, o4 < i → i < e → byte str i ≠ q) (hstop : e < str.length → byte str e = q)
    (hl : lineno < ULONG_MOD) :
    ∃ l', l' < ULONG_MOD ∧ attrValue str (str.length + 1) name attrname off lineno =
      if byte str e = q then .ok (slice str (o4 + 1) e, e + 1, l')
      else do_raise (msgUnclosedQuote name attrname) e l' := by
  have hlt : off < str.length := by omega
  have hnw : ¬ isWhite (byte str o4) := by
    rw [hq]; unfold isWhite; omega
  unfold attrValue
  rw [rd_ok (Nat.le_of_lt hlt), Res.ok_bind, if_pos (by simp [hc]),
    skipspaces_eq str (str.length + 1) (off + 1) lineno o4 (by omega) h4 (by omega) hl
      (fun i hi1 hi2 => hw i hi1 hi2) hnw, Res.ok_bind]
  try dsimp only
  rw [rd_ok (by omega), Res.ok_bind, if_pos (by rw [hq]; rcases hq' with h | h <;> simp [h])]
  try dsimp only
  have hspan : spanLen (fun c => c != byte str o4) (str.drop (o4 + 1)) = e - (o4 + 1) := by
    apply span_drop_eq _ str (o4 + 1) e h4e he
    · intro i hi1 hi2
      have := hv i hi1 hi2
      rw [hq]
      simpa using this
    · intro hlt2
      rw [hq, hstop hlt2]
      simp
  have he2 : o4 + 1 + (e - (o4 + 1)) = e := by omega
  rw [hspan, he2, rd_ok he, Res.ok_bind, hq]
  refine ⟨((lineno + nlRange str (off + 1) o4) % ULONG_MOD
    + List.count 10 (List.take (e - (o4 + 1)) (List.drop (o4 + 1) str))) % ULONG_MOD,
    Nat.mod_lt _ (by decide), ?_⟩
  by_cases hend : byte str e = q
  · rw [if_pos hend, if_neg (by simp [hend]), rb_str_new_ok h4e he, Res.ok_bind]
    rfl
  · rw [if_neg hend, if_pos (by simpa using hend)]

theorem tagLoop_attr (decode : Bytes → Bytes) (str : Bytes) (fuel off lineno o1 o2 o3 : Nat)
    (t : Tag) (hoff : off < str.length) (hb : byte str off ≠ 62) (h01 : off ≤ o1)
    (hw1 : ∀ i, off ≤ i → i < o1 → isWhite (byte str i)) (ha : isAlpha (byte str o1) = true)
    (h12 : o1 ≤ o2) (h2 : o2 ≤ str.length)
    (hname : ∀ i, o1 ≤ i → i < o2 → attrNameChar (byte str i) = true)
    (hstop : o2 < str.length → attrNameChar (byte str o2) = false)
    (h23 : o2 ≤ o3) (h3 : o3 ≤ str.length)
    (hw3 : ∀ i, o2 ≤ i → i < o3 → isWhite (byte str i)) (hn3 : ¬ isWhite (byte str o3))
    (hl : lineno < ULONG_MOD) :
    ∃ l3, l3 < ULONG_MOD ∧ tagLoop decode str (fuel + 1) off lineno t =
      (do
        let (attrvalue, off, lineno) ←
          attrValue str (str.length + 1) t.name (slice str o1 o2) o3 l3
        tagLoop decode str fuel off lineno
          { t with attrs := t.attrs ++ [(slice str o1 o2, decode attrvalue)] }) := by
  have hb1 := isAlpha_bounds _ ha
  have hnw1 : ¬ isWhite (byte str o1) := by unfold isWhite; omega
  have hlt1 : o1 < str.length := byte_lt_of_ne_zero (by omega)
  rw [tagLoop]
  have hcond : (decide (off < str.length) && byte str off != 62) = true := by
    simp [hoff, hb]
  rw [if_pos hcond,
    skipspaces_eq str (str.length + 1) off lineno o1 (by omega) h01 (by omega) hl hw1 hnw1,
    Res.ok_bind]
  try dsimp only
  rw [rd_ok (by omega), Res.ok_bind, if_neg (by simp; omega), if_neg (by simp; omega),
    if_neg (by simp; omega), if_pos ha]
  try dsimp only
  have hspan := span_drop_eq attrNameChar str o1 o2 h12 h2 hname hstop
  have he2 : o1 + (o2 - o1) = o2 := by omega
  rw [hspan, he2, rb_str_new_ok h12 h2, Res.ok_bind,
    skipspaces_eq str (str.length + 1) o2 _ o3 (by omega) h23 h3 (Nat.mod_lt _ (by decide))
      hw3 hn3, Res.ok_bind]
  exact ⟨_, Nat.mod_lt _ (by decide), rfl⟩

/-! ### A run of quoted attributes -/

theorem attrsText_head (kvs : List (Bytes × Bytes)) :
    byte (attrsText kvs ++ [62]) 0 = 32 ∨ byte (attrsText kvs ++ [62]) 0 = 62 := by
  cases kvs with
  | nil => right; rfl
  | cons kv rest => left; rfl

theorem tagLoop_attrsText (decode : Bytes → Bytes) : ∀ (kvs : List (Bytes × Bytes))
    (str : Bytes) (fuel off lineno : Nat) (t : Tag),
    (∀ kv ∈ kvs, wfAttrName kv.1 ∧ ∀ c ∈ kv.2, c ≠ 34) →
    str.drop off = attrsText kvs ++ [62] → kvs.length < fuel → lineno < ULONG_MOD →
    0 < str.length ∧ byte str (str.length - 1) = 62 ∧
    ∃ l', tagLoop decode str fuel off lineno t = .ok (str.length - 1, l',
      { t with attrs := t.attrs ++ kvs.map (fun kv => (kv.1, decode kv.2)) }) := by
  intro kvs
  induction kvs with
  | nil =>
    intro str fuel off lineno t _ h hfuel _
    obtain ⟨hlt, hb, h1⟩ := drop_head h
    have hend := drop_end h1 hlt
    obtain ⟨f, hf⟩ : ∃ f, fuel = f + 1 := ⟨fuel - 1, by simp at hfuel; omega⟩
    have e : str.length - 1 = off := by omega
    rw [e, hf, tagLoop_exit decode str f off lineno t (Or.inr hb)]
    refine ⟨by omega, hb, lineno, ?_⟩
    simp
  | cons kv rest ih =>
    intro str fuel off lineno t hwf h hfuel hl
    obtain ⟨k, v⟩ := kv
    obtain ⟨⟨hk0, hka, hkc⟩, hvq⟩ := hwf (k, v) (by simp)
    simp only [attrsText, List.cons_append, List.append_assoc] at h
    obtain ⟨hlt0, hb0, h1⟩ := drop_head h
    obtain ⟨hle1, h2, hsk, hk, hkb⟩ := drop_run h1 hlt0
    obtain ⟨hlt2, hb2, h3⟩ := drop_head h2
    obtain ⟨hlt3, hb3, h4⟩ := drop_head h3
    obtain ⟨hle4, h5, hsv, hv, _⟩ := drop_run h4 hlt3
    obtain ⟨hlt5, hb5, h6⟩ := drop_head h5
    have hkpos : 0 < k.length := List.length_pos.mpr hk0
    obtain ⟨f, hf⟩ : ∃ f, fuel = f + 1 := ⟨fuel - 1, by simp at hfuel; omega⟩
    have hfirst : byte str (off + 1) = byte k 0 := hkb 0 hkpos
    obtain ⟨l3, hl3, e3⟩ := tagLoop_attr decode str f off lineno (off + 1)
      (off + 1 + k.length) (off + 1 + k.length) t hlt0 (by omega) (by omega)
      (fun i hi1 hi2 => by
        have : i = off := by omega
        rw [this, hb0]; simp [isWhite])
      (by rw [hfirst]; exact hka) (by omega) hle1
      (fun i hi1 hi2 => hkc _ (hk i hi1 hi2))
      (fun _ => by rw [hb2]; rfl) (Nat.le_refl _) hle1
      (fun i hi1 hi2 => by omega)
      (by rw [hb2]; simp [isWhite]) hl
    obtain ⟨l4, hl4, e4⟩ := attrValue_quoted str t.name
      (slice str (off + 1) (off + 1 + k.length)) (off + 1 + k.length) l3
      (off + 1 + k.length + 1) (off + 1 + k.length + 1 + 1 + v.length) 34 hb2 (by omega)
      (fun i hi1 hi2 => by omega) hb3 (Or.inl rfl) (by omega) (by omega)
      (fun i hi1 hi2 => hvq _ (hv i (by omega) hi2)) (fun _ => hb5) hl3
    rw [if_pos hb5] at e4
    obtain ⟨hpos, hlast, l', e'⟩ := ih str f (off + 1 + k.length + 1 + 1 + v.length + 1) l4
      { t with attrs := t.attrs ++ [(k, decode v)] }
      (fun kv hkv => hwf kv (by simp [hkv])) h6 (by simp at hfuel; omega) hl4
    refine ⟨hpos, hlast, l', ?_⟩
    rw [hf, e3, e4, Res.ok_bind, hsk, hsv]
    simp only [] at e' ⊢
    rw [e']
    simp

theorem attrsText_length (kvs : List (Bytes × Bytes)) : kvs.length ≤ (attrsText kvs).length := by
  induction kvs with
  | nil => simp
  | cons kv rest ih =>
    obtain ⟨k, v⟩ := kv
    simp only [attrsText, List.length_cons, List.length_append]
    omega

theorem nlRange_all (str : Bytes) : nlRange str 0 str.length = str.count 10 := by
  simp [nlRange, slice]

/-- Entry of the `'<'` path on a buffer whose name starts right after the
`'<'` at `off` and is the run `n`, followed by a name terminator: the name
span is `n` and, unless `n` starts with `!--`, the attribute loop is entered
just after it with a fresh tag named `n`. -/
theorem parse_named (decode : Bytes → Bytes) (str : Bytes) (off lineno : Nat) (n R : Bytes)
    (hl : lineno < ULONG_MOD) (hview : str.drop off = 60 :: (n ++ R))
    (hn0 : n ≠ []) (hnc : ∀ c ∈ n, c ≠ 32 ∧ c ≠ 13 ∧ c ≠ 9 ∧ c ≠ 10 ∧ c ≠ 47 ∧ c ≠ 62 ∧ c ≠ 0)
    (hnp : ¬ ([33, 45, 45] <+: n)) (hR : byte R 0 = 0 ∨ byte R 0 ∈ wstagname) :
    ∃ l1, l1 < ULONG_MOD ∧
      (∀ o l t, tagLoop decode str (str.length + 1) (off + 1 + n.length) l1 ⟨n, [], false⟩
          = .ok (o, l, t) →
        (byte str o = 62 → rbxml_parse_element decode str off lineno = .ok (.tag t, o + 1, l)) ∧
        (byte str o ≠ 62 → rbxml_parse_element decode str off lineno
          = do_raise (msgUnclosedTag t.name) o l)) ∧
      (∀ s, tagLoop decode str (str.length + 1) (off + 1 + n.length) l1 ⟨n, [], false⟩
          = .stop s → rbxml_parse_element decode str off lineno = .stop s) := by
  obtain ⟨hlt, hb, h1⟩ := drop_head hview
  obtain ⟨hle1, h2, hsn, hnm, hnb⟩ := drop_run h1 hlt
  have hnpos : 0 < n.length := List.length_pos.mpr hn0
  have hfirst : byte str (off + 1) = byte n 0 := hnb 0 hnpos
  have hfirst_mem : byte str (off + 1) ∈ n := hnm _ (Nat.le_refl _) (by omega)
  have hend : byte str (off + 1 + n.length) = byte R 0 := by
    have := byte_drop str (off + 1 + n.length) 0
    rw [h2] at this
    exact this.symm
  obtain ⟨o1, l1, o2, _, h01, hw1, hn1, h12, hs2, hrun, hsel, hstop, hcase⟩ :=
    parse_open decode str off lineno (Nat.le_of_lt hlt) hl hb
  have ho1 : o1 = off + 1 := by
    apply first_nonwhite_unique str (off + 1) o1 (off + 1)
      (fun i hi1 hi2 => hw1 i hi1 hi2) hn1 (fun i hi1 hi2 => by omega) _ h01 (Nat.le_refl _)
    have := hnc _ hfirst_mem
    unfold isWhite
    omega
  subst ho1
  have h47 : byte str (off + 1) ≠ 47 := (hnc _ hfirst_mem).2.2.2.2.1
  rw [if_neg h47] at hrun hsel
  have ho2 : o2 = off + 1 + n.length := by
    apply first_unique (fun i => byte str i = 0 ∨ byte str i ∈ wstagname) (off + 1)
    · intro i hi1 hi2 hP
      have := hrun i hi1 hi2
      rcases hP with h | h
      · exact this.1 h
      · exact this.2 h
    · exact hstop
    · intro i hi1 hi2 hP
      have hc := hnc _ (hnm i hi1 hi2)
      rcases hP with h | h
      · exact hc.2.2.2.2.2.2 h
      · simp [wstagname] at h
        omega
    · show byte str (off + 1 + n.length) = 0 ∨ byte str (off + 1 + n.length) ∈ wstagname
      rw [hend]; exact hR
    · exact hsel
    · omega
  subst ho2
  rcases hcase with ⟨c0, c1, c2, h3, _⟩ | ⟨_, hok, hstop'⟩
  · exfalso
    apply hnp
    have e0 := hnb 0 (by omega)
    have e1 := hnb 1 (by omega)
    have e2 := hnb 2 (by omega)
    rw [Nat.add_zero, c0] at e0
    rw [c1] at e1
    rw [c2] at e2
    match n, e0, e1, e2, h3 with
    | a :: b :: c :: n3, e0, e1, e2, _ =>
      simp at e0 e1 e2
      subst e0 e1 e2
      exact ⟨n3, rfl⟩
    | [a, b], _, _, _, h3 => simp at h3
    | [a], _, _, _, h3 => simp at h3
    | [], _, _, _, h3 => simp at h3
  · rw [hsn] at hok hstop'
    exact ⟨l1, hs2.lt, hok, hstop'⟩

theorem slice_length (str : Bytes) (a b : Nat) (hb : b ≤ str.length) :
    (slice str a b).length = b - a := by
  unfold slice
  rw [List.length_take, List.length_drop]
  omega

/-- The attribute loop entered before a `'/'` in attribute position at `o1`
whose next non-blank byte is at `o2`. -/
theorem tagLoop_slash (decode : Bytes → Bytes) (str : Bytes) (fuel off lineno o1 o2 : Nat)
    (t : Tag) (hoff : off < str.length) (hb : byte str off ≠ 62)
    (hfuel : str.length - off < fuel) (hl : lineno < ULONG_MOD) (h01 : off ≤ o1)
    (hw1 : ∀ i, off ≤ i → i < o1 → isWhite (byte str i)) (h47 : byte str o1 = 47)
    (h12 : o1 < o2) (hw2 : ∀ i, o1 < i → i < o2 → isWhite (byte str i))
    (hn2 : ¬ isWhite (byte str o2)) :
    o2 ≤ str.length ∧
    (byte str o2 = 62 → tagLoop decode str fuel off lineno t
      = .ok (o2, (lineno + nlRange str off o2) % ULONG_MOD, { t with uniq := true })) ∧
    (byte str o2 ≠ 62 → tagLoop decode str fuel off lineno t
      = do_raise (msgExpectedClose t.name) o2 ((lineno + nlRange str off o2) % ULONG_MOD)) := by
  obtain ⟨f, hf⟩ : ∃ f, fuel = f + 2 := ⟨fuel - 2, by omega⟩
  subst hf
  obtain ⟨p1, l1, _, hs1, hp1, hq1, hcase⟩ := tagLoop_step decode str (f + 1) off lineno t hoff hb hl
  have e1 : p1 = o1 := first_nonwhite_unique str off p1 o1 hp1 hq1 hw1
    (by rw [h47]; simp [isWhite]) hs1.1 h01
  subst e1
  rcases hcase with ⟨c, _⟩ | ⟨_, p2, l2, e2, hs2, hlt2, hp2, hcase2⟩ | ⟨c, _⟩ | ⟨c, _⟩ |
    ⟨_, c, _⟩
  · omega
  · have hlt1 : p1 < str.length := byte_lt_of_ne_zero (by omega)
    obtain ⟨q2, m2, e2', hs2', hp2', hq2'⟩ :=
      skipspaces_spec str (str.length + 1) (p1 + 1) l1 hlt1 (by omega) hs1.lt
    rw [e2] at e2'
    cases e2'
    have e3 : p2 = o2 := first_nonwhite_unique str (p1 + 1) p2 o2 hp2' hq2'
      (fun i hi1 hi2 => hw2 i hi1 hi2) hn2 hlt2 h12
    subst e3
    have hl2 : l2 = (lineno + nlRange str off p2) % ULONG_MOD := (hs1.trans hs2).2.2
    refine ⟨hs2.2.1, fun h62 => ?_, fun h62 => ?_⟩
    · rcases hcase2 with ⟨c, _⟩ | ⟨_, e⟩
      · exact absurd h62 c
      · rw [e, tagLoop_exit decode str f p2 l2 _ (Or.inr h62), hl2]
    · rcases hcase2 with ⟨_, e⟩ | ⟨c, _⟩
      · rw [e, hl2]
      · exact absurd c h62
  · omega
  · have := isAlpha_bounds _ c
    omega
  · exact absurd h47 c

/-! ### Comments -/

/-- Entry of the comment path on a buffer that holds `<!--` at `off`: the
name span ends at `o2`, at or after the end of the opening marker, and
everything the comment case of `parse_open` provides holds with the name
starting at `off + 1`. -/
theorem parse_comment_open (decode : Bytes → Bytes) (str : Bytes) (off lineno : Nat) (X : Bytes)
    (hl : lineno < ULONG_MOD) (hview : str.drop off = 60 :: 33 :: 45 :: 45 :: X) :
    off + 4 ≤ str.length ∧ str.drop (off + 4) = X ∧
    ∃ l1 o2 o3 l3, off + 4 ≤ o2 ∧
      (∀ i, off + 4 ≤ i → i < o2 → byte str i ≠ 0 ∧ byte str i ∉ wstagname) ∧
      (byte str o2 = 0 ∨ byte str o2 ∈ wstagname) ∧
      Scan str o2 l1 o3 l3 ∧ (∀ j, o2 ≤ j → j < o3 → byte str j ≠ 0) ∧
      ((byte str o3 = 0 ∧ ∀ j, o2 ≤ j → j < o3 → ¬ closing str (off + 4) j) ∨
        (o2 < o3 ∧ closing str (off + 4) (o3 - 1) ∧
          ∀ j, o2 ≤ j → j < o3 - 1 → ¬ closing str (off + 4) j)) ∧
      ((¬ (byte str (o3 - 1) = 62 ∧ byte str (o3 - 2) = 45 ∧ byte str (o3 - 3) ≠ 0) ∧
          rbxml_parse_element decode str off lineno
            = .ok (.comment (slice str (off + 4) o3), o3, l3)) ∨
       ((byte str (o3 - 1) = 62 ∧ byte str (o3 - 2) = 45 ∧ byte str (o3 - 3) ≠ 0) ∧
          off + 7 ≤ o3 ∧
          rbxml_parse_element decode str off lineno
            = .ok (.comment (slice str (off + 4) (o3 - 3)), o3, l3)) ∨
       ((byte str (o3 - 1) = 62 ∧ byte str (o3 - 2) = 45 ∧ byte str (o3 - 3) ≠ 0) ∧
          o3 < off + 7 ∧
          rbxml_parse_element decode str off lineno = .stop .badlen)) := by
  obtain ⟨hlt0, hb0, h1⟩ := drop_head hview
  obtain ⟨hlt1, hb1, h2⟩ := drop_head h1
  obtain ⟨hlt2, hb2, h3⟩ := drop_head h2
  obtain ⟨hlt3, hb3, h4⟩ := drop_head h3
  refine ⟨by omega, h4, ?_⟩
  obtain ⟨o1, l1, o2, _, h01, hw1, hn1, h12, hs2, hrun, hsel, hstop, hcase⟩ :=
    parse_open decode str off lineno (Nat.le_of_lt hlt0) hl hb0
  have ho1 : o1 = off + 1 := by
    apply first_nonwhite_unique str (off + 1) o1 (off + 1)
      (fun i hi1 hi2 => hw1 i hi1 hi2) hn1 (fun i hi1 hi2 => by omega) _ h01 (Nat.le_refl _)
    rw [hb1]; simp [isWhite]
  subst ho1
  rcases hcase with ⟨c0, _, _, h3', o3, l3, _, hs3, hz3, hcl3, hres⟩ | ⟨hnc, _, _⟩
  · rw [if_neg (by omega)] at hrun
    exact ⟨l1, o2, o3, l3, by omega, fun i hi1 hi2 => hrun i (by omega) hi2, hstop, hs3, hz3, hcl3,
      hres⟩
  · exact absurd ⟨hb1, hb2, hb3⟩ hnc

theorem drop_three (X : Bytes) (k : Nat) (h : k + 2 < X.length) :
    X.drop k = byte X k :: byte X (k + 1) :: byte X (k + 2) :: X.drop (k + 3) := by
  rw [List.drop_eq_getElem_cons (show k < X.length by omega),
    List.drop_eq_getElem_cons (show k + 1 < X.length by omega),
    List.drop_eq_getElem_cons (show k + 2 < X.length by omega),
    byte_eq_getElem (show k < X.length by omega),
    byte_eq_getElem (show k + 1 < X.length by omega),
    byte_eq_getElem (show k + 2 < X.length by omega)]

/-- A closing `'>'` at `j` is the end of an occurrence of `-->` in the bytes
after the opening marker, starting at position `j - 2 - a` of them. -/
theorem closing_view {str : Bytes} {a : Nat} {X : Bytes} (hview : str.drop a = X)
    (ha : a ≤ str.length) {j : Nat} (hc : closing str a j) :
    a + 3 ≤ j ∧ j < str.length ∧ [45, 45, 62] <+: X.drop (j - 2 - a) := by
  obtain ⟨c0, c1, c2, c3⟩ := hc
  have hj : j < str.length := byte_lt_of_ne_zero (by omega)
  have hlen : X.length = str.length - a := by rw [← hview, List.length_drop]
  refine ⟨by omega, hj, ?_⟩
  have hb : ∀ i, byte X i = byte str (a + i) := fun i => by rw [← hview, byte_drop]
  rw [drop_three X (j - 2 - a) (by omega), hb, hb, hb]
  have e0 : a + (j - 2 - a) = j - 2 := by omega
  have e1 : a + (j - 2 - a + 1) = j - 1 := by omega
  have e2 : a + (j - 2 - a + 2) = j := by omega
  rw [e0, e1, e2, c0, c2, c3]
  exact ⟨_, rfl⟩

theorem suffix_two (str : Bytes) (h : 2 ≤ str.length) :
    [byte str (str.length - 2), byte str (str.length - 1)] <:+ str := by
  have e1 : str.length - 2 + 1 = str.length - 1 := by omega
  have e2 : str.length - 1 + 1 = str.length := by omega
  have hd : str.drop (str.length - 2)
      = [byte str (str.length - 2), byte str (str.length - 1)] := by
    rw [List.drop_eq_getElem_cons (show str.length - 2 < str.length by omega),
      byte_eq_getElem (show str.length - 2 < str.length by omega),
      byte_eq_getElem (show str.length - 1 < str.length by omega)]
    simp only [e1]
    rw [List.drop_eq_getElem_cons (show str.length - 1 < str.length by omega)]
    simp only [e2, List.drop_length]
  rw [← hd]
  exact List.drop_suffix _ _

/-- A closed comment with a non-empty body: the text is the body and the
cursor ends just after the first `-->` that follows the opening marker. -/
theorem comment_nonempty_body (decode : Bytes → Bytes) (str : Bytes) (off lineno : Nat)
    (body rest : Bytes) (hl : lineno < ULONG_MOD)
    (hview : str.drop off = 60 :: 33 :: 45 :: 45 :: (body ++ 45 :: 45 :: 62 :: rest))
    (hbody : body ≠ []) (hnul : ∀ c ∈ body, c ≠ 0)
    (hfirst : ∀ k, k < body.length → ¬ ([45, 45, 62] <+: (body ++ [45, 45, 62]).drop k)) :
    rbxml_parse_element decode str off lineno =
      .ok (.comment body, off + body.length + 7,
        (lineno + nlRange str off (off + body.length + 7)) % ULONG_MOD) := by
  have hbpos : 0 < body.length := List.length_pos.mpr hbody
  obtain ⟨hlen4, h4, l1, o2, o3, l3, h2, hrun, _, hs3, _, hstop, hres⟩ :=
    parse_comment_open decode str off lineno _ hl hview
  obtain ⟨hleB, hdropB, hsliceB, hmemB, _⟩ := drop_run h4 hlen4
  obtain ⟨hlt5, hb5, h5⟩ := drop_head hdropB
  obtain ⟨hlt6, hb6, h6⟩ := drop_head h5
  obtain ⟨hlt7, hb7, _⟩ := drop_head h6
  have hJ : closing str (off + 4) (off + 4 + body.length + 1 + 1) := by
    refine ⟨hb7, by omega, ?_, ?_⟩
    · have : off + 4 + body.length + 1 + 1 - 1 = off + 4 + body.length + 1 := by omega
      rw [this]; exact hb6
    · have : off + 4 + body.length + 1 + 1 - 2 = off + 4 + body.length := by omega
      rw [this]; exact hb5
  have hnz : ∀ i, off + 4 ≤ i → i ≤ off + 4 + body.length + 1 + 1 → byte str i ≠ 0 := by
    intro i hi1 hi2
    by_cases hi : i < off + 4 + body.length
    · exact hnul _ (hmemB i hi1 hi)
    · have : i = off + 4 + body.length ∨ i = off + 4 + body.length + 1 ∨
          i = off + 4 + body.length + 1 + 1 := by omega
      rcases this with h | h | h <;> rw [h] <;> omega
  have hbefore : ∀ j, j < off + 4 + body.length + 1 + 1 → ¬ closing str (off + 4) j := by
    intro j hj hc
    obtain ⟨hj3, _, hp⟩ := closing_view h4 hlen4 hc
    apply hfirst (j - 2 - (off + 4)) (by omega)
    rw [List.drop_append_of_le_length (by omega)] at hp ⊢
    refine List.prefix_of_prefix_length_le hp ?_ (by simp)
    exact ⟨rest, by simp⟩
  have ho2 : o2 ≤ off + 4 + body.length + 1 + 1 := by
    by_contra hcon
    have := (hrun (off + 4 + body.length + 1 + 1) (by omega) (by omega)).2
    rw [hb7] at this
    simp [wstagname] at this
  have h23 := hs3.1
  have ho3 : o3 = off + 4 + body.length + 1 + 1 + 1 := by
    rcases hstop with ⟨hz, hnc⟩ | ⟨_, hc, hnc⟩
    · by_cases h : o3 ≤ off + 4 + body.length + 1 + 1
      · exact absurd hz (hnz o3 (by omega) h)
      · exact absurd hJ (hnc _ ho2 (by omega))
    · by_contra hne
      have hlt : o3 - 1 < off + 4 + body.length + 1 + 1 := by
        by_contra hge
        exact hnc _ ho2 (by omega) hJ
      exact hbefore _ hlt hc
  subst ho3
  have hstrip : byte str (off + 4 + body.length + 1 + 1 + 1 - 1) = 62 ∧
      byte str (off + 4 + body.length + 1 + 1 + 1 - 2) = 45 ∧
      byte str (off + 4 + body.length + 1 + 1 + 1 - 3) ≠ 0 := by
    have e1 : off + 4 + body.length + 1 + 1 + 1 - 1 = off + 4 + body.length + 1 + 1 := by omega
    have e2 : off + 4 + body.length + 1 + 1 + 1 - 2 = off + 4 + body.length + 1 := by omega
    have e3 : off + 4 + body.length + 1 + 1 + 1 - 3 = off + 4 + body.length := by omega
    rw [e1, e2, e3, hb5, hb6, hb7]
    simp
  have hp := parse_post decode str off lineno (by omega) hl
  have e7 : off + 4 + body.length + 1 + 1 + 1 = off + body.length + 7 := by omega
  have e3 : off + 4 + body.length + 1 + 1 + 1 - 3 = off + 4 + body.length := by omega
  rcases hres with ⟨c, _⟩ | ⟨_, _, e⟩ | ⟨_, c, _⟩
  · exact absurd hstrip c
  · rw [e] at hp
    rw [e, hp.1.2.2, e3, hsliceB, e7]
  · omega

theorem cstr_eq (s : Bytes) (h : ∀ c ∈ s, c ≠ 0) : cstr s = s := by
  unfold cstr
  rw [List.takeWhile_eq_self_iff]
  intro c hc
  simpa using h c hc

theorem attrNameChar_ne_zero (c : Nat) (h : attrNameChar c = true) : c ≠ 0 := by
  intro h0
  rw [h0] at h
  simp [attrNameChar] at h

/-- The two comment scenarios of the spec: `<!-- hi -->` gives the text
` hi ` and the cursor 11; `<!--`, newline, `foo-->` gives the text made of
the newline and `foo`, and the line counter one higher. -/
theorem comment_scenarios :
    rbxml_parse_element id (ofString "<!-- hi -->") 0 1
      = .ok (.comment (ofString " hi "), 11, 1) ∧
    rbxml_parse_element id (ofString "<!--\nfoo-->") 0 1
      = .ok (.comment (ofString "\nfoo"), 11, 2) := by
  decide

/-! ### Shape of a returned tag -/

/-- A returned tag, taken apart: the name starts at the first non-blank byte
`o1` after the `'<'`, runs (after an optional leading `'/'`) up to the first
name terminator or NUL at `o2`, and the attribute loop entered at `o2` ends
on the `'>'` at `o`, just before the new cursor. -/
theorem parse_tag_shape (decode : Bytes → Bytes) (str : Bytes) (off lineno : Nat) (t : Tag)
    (off' lineno' : Nat) (hl : lineno < ULONG_MOD)
    (h : rbxml_parse_element decode str off lineno = .ok (.tag t, off', lineno')) :
    ∃ o1 l1 o2 o, off < o1 ∧ (∀ i, off < i → i < o1 → isWhite (byte str i)) ∧
      ¬ isWhite (byte str o1) ∧ l1 < ULONG_MOD ∧
      (if byte str o1 = 47 then o1 + 1 else o1) ≤ o2 ∧ o2 ≤ str.length ∧
      (∀ i, (if byte str o1 = 47 then o1 + 1 else o1) ≤ i → i < o2 →
        byte str i ≠ 0 ∧ byte str i ∉ wstagname) ∧
      (byte str o2 = 0 ∨ byte str o2 ∈ wstagname) ∧
      t.name = slice str o1 o2 ∧ o2 ≤ o ∧ byte str o = 62 ∧ off' = o + 1 ∧
      tagLoop decode str (str.length + 1) o2 l1 ⟨slice str o1 o2, [], false⟩
        = .ok (o, lineno', t) := by
  have hoff : off ≤ str.length := by
    by_contra hc
    rw [parse_oob decode str off lineno (by omega)] at h
    cases h
  have hc : byte str off = 60 := by
    by_contra hc
    obtain ⟨_, _, _, _, _, _, e⟩ := parse_text decode str off lineno hoff hl hc
    rw [e] at h
    cases h
  obtain ⟨o1, l1, o2, _, h01, hw1, hn1, h12, hs2, hrun, hsel, hstop, hcase⟩ :=
    parse_open decode str off lineno hoff hl hc
  rcases hcase with ⟨_, _, _, _, o3, l3, _, _, _, _, hres⟩ | ⟨_, hok, hstop'⟩
  · rcases hres with ⟨_, e⟩ | ⟨_, _, e⟩ | ⟨_, _, e⟩ <;> rw [e] at h <;> cases h
  · have hpost := tagLoop_spec decode str (str.length + 1) o2 l1 ⟨slice str o1 o2, [], false⟩
      hs2.2.1 hs2.lt (Or.inl (by omega))
    generalize hr : tagLoop decode str (str.length + 1) o2 l1 ⟨slice str o1 o2, [], false⟩ = r
      at hpost
    match r, hpost with
    | .ok (o, l, t'), hpost =>
      obtain ⟨hs, hname, _, _⟩ := hpost
      by_cases h62 : byte str o = 62
      · rw [(hok o l t' hr).1 h62] at h
        cases h
        exact ⟨o1, l1, o2, o, h01, hw1, hn1, hs2.lt, hsel, hs2.2.1, hrun, hstop, hname, hs.1, h62,
          rfl, hr⟩
      · rw [(hok o l t' hr).2 h62] at h
        cases h
    | .stop (.raised m o l), _ =>
      rw [hstop' _ hr] at h
      cases h

/-! ### The `'?'` marker -/

theorem msgExpectedClose_ne (a b : Bytes) :
    snprintf255 (msgExpectedClose a) ≠ snprintf255 (msgInvalidQuestion b) := by
  intro h
  have := congrArg (fun m => byte m 0) h
  simp [snprintf255, msgExpectedClose, msgInvalidQuestion, byte] at this

theorem msgInvalidAttribute_ne (a b : Bytes) :
    snprintf255 (msgInvalidAttribute a) ≠ snprintf255 (msgInvalidQuestion b) := by
  intro h
  have := congrArg (fun m => byte m 8) h
  simp [snprintf255, msgInvalidAttribute, msgInvalidQuestion, byte] at this

theorem msgUnclosedQuote_ne (a c b : Bytes) :
    snprintf255 (msgUnclosedQuote a c) ≠ snprintf255 (msgInvalidQuestion b) := by
  intro h
  have := congrArg (fun m => byte m 0) h
  simp [snprintf255, msgUnclosedQuote, msgInvalidQuestion, byte] at this

theorem msgUnclosedTag_ne (a b : Bytes) :
    snprintf255 (msgUnclosedTag a) ≠ snprintf255 (msgInvalidQuestion b) := by
  intro h
  have := congrArg (fun m => byte m 0) h
  simp [snprintf255, msgUnclosedTag, msgInvalidQuestion, byte] at this

/-- The attribute loop entered before a `'?'` in attribute position at
`o1`. -/
theorem tagLoop_question (decode : Bytes → Bytes) (str : Bytes) (fuel off lineno o1 : Nat)
    (t : Tag) (hoff : off < str.length) (hb : byte str off ≠ 62) (hl : lineno < ULONG_MOD)
    (h01 : off ≤ o1) (hw1 : ∀ i, off ≤ i → i < o1 → isWhite (byte str i))
    (h63 : byte str o1 = 63) :
    o1 < str.length ∧ (lineno + nlRange str off o1) % ULONG_MOD < ULONG_MOD ∧
    (byte t.name 0 ≠ 63 → tagLoop decode str (fuel + 1) off lineno t
      = do_raise (msgInvalidQuestion t.name) o1 ((lineno + nlRange str off o1) % ULONG_MOD)) ∧
    (byte t.name 0 = 63 → tagLoop decode str (fuel + 1) off lineno t
      = tagLoop decode str fuel (o1 + 1) ((lineno + nlRange str off o1) % ULONG_MOD) t) := by
  obtain ⟨p1, l1, _, hs1, hp1, hq1, hcase⟩ := tagLoop_step decode str fuel off lineno t hoff hb hl
  have e1 : p1 = o1 := first_nonwhite_unique str off p1 o1 hp1 hq1 hw1
    (by rw [h63]; simp [isWhite]) hs1.1 h01
  subst e1
  have hl1 : l1 = (lineno + nlRange str off p1) % ULONG_MOD := hs1.2.2
  refine ⟨byte_lt_of_ne_zero (by omega), Nat.mod_lt _ (by decide), ?_, ?_⟩
  · intro hname
    rcases hcase with ⟨c, _⟩ | ⟨c, _⟩ | ⟨_, hc3⟩ | ⟨c, _⟩ | ⟨_, _, c, _⟩
    · omega
    · omega
    · rcases hc3 with ⟨_, e⟩ | ⟨c, _⟩
      · rw [e, hl1]
      · exact absurd c hname
    · have := isAlpha_bounds _ c
      omega
    · exact absurd h63 c
  · intro hname
    rcases hcase with ⟨c, _⟩ | ⟨c, _⟩ | ⟨_, hc3⟩ | ⟨c, _⟩ | ⟨_, _, c, _⟩
    · omega
    · omega
    · rcases hc3 with ⟨c, _⟩ | ⟨_, e⟩
      · exact absurd hname c
      · rw [e, hl1]
    · have := isAlpha_bounds _ c
      omega
    · exact absurd h63 c

/-- With a tag name that begins with `'?'` the attribute loop never raises
the `invalid ?` error. -/
theorem tagLoop_no_question (decode : Bytes → Bytes) (str : Bytes) : ∀ (fuel off lineno : Nat)
    (t : Tag), byte t.name 0 = 63 → off ≤ str.length → lineno < ULONG_MOD →
    ∀ o l, tagLoop decode str fuel off lineno t
      ≠ .stop (.raised (snprintf255 (msgInvalidQuestion t.name)) o l) := by
  intro fuel
  induction fuel with
  | zero =>
    intro off lineno t _ _ _ o l h
    rw [tagLoop_zero] at h
    cases h
  | succ fuel ih =>
    intro off lineno t hname hoff hl o l
    by_cases hexit : str.length ≤ off ∨ byte str off = 62
    · rw [tagLoop_exit decode str fuel off lineno t hexit]
      intro h
      cases h
    · have hlt : off < str.length := by omega
      have hb : byte str off ≠ 62 := fun h => hexit (Or.inr h)
      obtain ⟨o1, l1, _, hs1, _, _, hcase⟩ := tagLoop_step decode str fuel off lineno t hlt hb hl
      rcases hcase with ⟨_, e⟩ | ⟨_, o2, l2, _, hs2, _, _, hcase2⟩ | ⟨c3, hcase3⟩ |
        ⟨_, o2, o3, l3, _, _, _, _, _, hs3, hcase4⟩ | ⟨_, _, _, _, e⟩
      · rw [e]
        exact ih o1 l1 t hname hs1.2.1 hs1.lt o l
      · rcases hcase2 with ⟨_, e⟩ | ⟨_, e⟩
        · rw [e]
          intro h
          simp only [do_raise, Res.stop.injEq, Stop.raised.injEq] at h
          exact msgExpectedClose_ne _ _ h.1
        · rw [e]
          exact ih o2 l2 { t with uniq := true } hname hs2.2.1 hs2.lt o l
      · rcases hcase3 with ⟨c, _⟩ | ⟨_, e⟩
        · exact absurd hname c
        · rw [e]
          have hlt1 : o1 < str.length := byte_lt_of_ne_zero (by omega)
          exact ih (o1 + 1) l1 t hname hlt1 hs1.lt o l
      · rcases hcase4 with ⟨o', l', _, _, e⟩ | ⟨v, o4, l4, _, hs4, e⟩
        · rw [e]
          intro h
          simp only [do_raise, Res.stop.injEq, Stop.raised.injEq] at h
          exact msgUnclosedQuote_ne _ _ _ h.1
        · rw [e]
          exact ih o4 l4 { t with attrs := t.attrs ++ [(slice str o1 o2, decode v)] } hname
            hs4.2.1 hs4.lt o l
      · rw [e]
        intro h
        simp only [do_raise, Res.stop.injEq, Stop.raised.injEq] at h
        exact msgInvalidAttribute_ne _ _ h.1

/-- With a tag name that begins with `'?'` the rest of the tag scan never
raises the `invalid ?` error. -/
theorem tagRest_no_question (decode : Bytes → Bytes) (str : Bytes) (fuel off lineno : Nat)
    (t : Tag) (hname : byte t.name 0 = 63) (hoff : off ≤ str.length) (hl : lineno < ULONG_MOD)
    (o l : Nat) :
    tagRest decode str fuel off lineno t
      ≠ .stop (.raised (snprintf255 (msgInvalidQuestion t.name)) o l) := by
  have hloop := tagLoop_no_question decode str fuel off lineno t hname hoff hl o l
  have hpost := tagLoop_spec decode str fuel off lineno t hoff hl
  unfold tagRest
  generalize tagLoop decode str fuel off lineno t = r at hloop hpost
  match r with
  | .ok (o', l', t') =>
    intro h
    rw [Res.ok_bind] at h
    try dsimp only at h
    by_cases hle : o' ≤ str.length
    · rw [rd_ok hle, Res.ok_bind] at h
      by_cases h62 : byte str o' = 62
      · rw [if_neg (by simp [h62])] at h
        cases h
      · rw [if_pos (by simpa using h62)] at h
        simp only [do_raise, Res.stop.injEq, Stop.raised.injEq] at h
        exact msgUnclosedTag_ne _ _ h.1
    · unfold rd at h
      rw [if_neg hle] at h
      cases h
  | .stop s =>
    intro h
    rw [Res.stop_bind] at h
    cases h
    exact hloop rfl

/-! ## Claims -/

/-- Claim C1, as stated, fails: with the line counter at `2 ^ 64 - 1` the raw
text `"\n"` is consumed and the counter written back is `0`, not the counter
before the call plus the one newline consumed. -/
theorem C1_line_count_exact_counterexample :
    ¬ (∀ (str : Bytes) (off lineno : Nat) (node : Node) (off' lineno' : Nat),
        off ≤ str.length → lineno < ULONG_MOD →
        rbxml_parse_element id str off lineno = .ok (node, off', lineno') →
        lineno' = lineno + nlRange str off off') := by
  intro h
  have := h [10] 0 18446744073709551615 (.text [10]) 1 0 (by decide) (by decide) (by decide)
  revert this
  decide

/-- Claim C1, amended: whenever the call returns a node, on every path, the
line counter written back is the counter before the call plus the number of
newline bytes in `str[off, off')`, reduced modulo `2 ^ 64`; it is the exact
sum whenever that sum fits an `unsigned long`. -/
theorem C1_line_count_mod (decode : Bytes → Bytes) (str : Bytes) (off lineno : Nat)
    (node : Node) (off' lineno' : Nat) (hoff : off ≤ str.length) (hl : lineno < ULONG_MOD)
    (h : rbxml_parse_element decode str off lineno = .ok (node, off', lineno')) :
    lineno' = (lineno + nlRange str off off') % ULONG_MOD ∧
    (lineno + nlRange str off off' < ULONG_MOD → lineno' = lineno + nlRange str off off') := by
  have hp := parse_post decode str off lineno hoff hl
  rw [h] at hp
  refine ⟨hp.1.2.2, fun hlt => ?_⟩
  rw [hp.1.2.2, Nat.mod_eq_of_lt hlt]

/-- Claim C1, amended, at the buffer `"a\nb<c>"` with the counter at 7. -/
theorem C1_line_count_mod_witness :
    rbxml_parse_element id (ofString "a\nb<c>") 0 7 = .ok (.text (ofString "a\nb"), 3, 8) ∧
    (8 = (7 + nlRange (ofString "a\nb<c>") 0 3) % ULONG_MOD ∧
    (7 + nlRange (ofString "a\nb<c>") 0 3 < ULONG_MOD →
      8 = 7 + nlRange (ofString "a\nb<c>") 0 3)) :=
  ⟨by decide, C1_line_count_mod id (ofString "a\nb<c>") 0 7 (.text (ofString "a\nb")) 3 8
    (by decide) (by decide) (by decide)⟩

/-- Claim C2: for a cursor inside the buffer, the call reads no byte beyond
the terminating NUL, and the cursor written back, both with a returned node
and with a parse error raised through `do_raise`, is again inside the
buffer. -/
theorem C2_cursor_bound (decode : Bytes → Bytes) (str : Bytes) (off lineno : Nat)
    (hoff : off ≤ str.length) (hl : lineno < ULONG_MOD) :
    rbxml_parse_element decode str off lineno ≠ .stop .oob ∧
    (∀ node off' lineno', rbxml_parse_element decode str off lineno = .ok (node, off', lineno') →
      off' ≤ str.length) ∧
    (∀ msg off' lineno', rbxml_parse_element decode str off lineno
        = .stop (.raised msg off' lineno') → off' ≤ str.length) := by
  have hp := parse_post decode str off lineno hoff hl
  refine ⟨fun h => ?_, fun node off' lineno' h => ?_, fun msg off' lineno' h => ?_⟩
  · rw [h] at hp; exact hp
  · rw [h] at hp; exact hp.1.2.1
  · rw [h] at hp; exact hp

/-- Claim C2 at the unterminated tag `"<a b"` read from offset 0. -/
theorem C2_cursor_bound_witness :
    rbxml_parse_element id (ofString "<a b") 0 1 ≠ .stop .oob ∧
    (∀ node off' lineno', rbxml_parse_element id (ofString "<a b") 0 1
        = .ok (node, off', lineno') → off' ≤ (ofString "<a b").length) ∧
    (∀ msg off' lineno', rbxml_parse_element id (ofString "<a b") 0 1
        = .stop (.raised msg off' lineno') → off' ≤ (ofString "<a b").length) :=
  C2_cursor_bound id (ofString "<a b") 0 1 (by decide) (by decide)

/-- Claim C3: at a cursor before the end of the buffer whose byte is not
NUL, a call that returns a node leaves the cursor strictly further. -/
theorem C3_progress (decode : Bytes → Bytes) (str : Bytes) (off lineno : Nat)
    (node : Node) (off' lineno' : Nat) (hoff : off < str.length) (hb : byte str off ≠ 0)
    (hl : lineno < ULONG_MOD)
    (h : rbxml_parse_element decode str off lineno = .ok (node, off', lineno')) :
    off < off' := by
  have hp := parse_post decode str off lineno (Nat.le_of_lt hoff) hl
  rw [h] at hp
  exact hp.2.1 hb

/-- Claim C3 at the buffer `"\n<a>"`: the lone newline is consumed. -/
theorem C3_progress_witness :
    rbxml_parse_element id (ofString "\n<a>") 0 1 = .ok (.text (ofString "\n"), 1, 2) ∧ 0 < 1 :=
  ⟨by decide, C3_progress id (ofString "\n<a>") 0 1 (.text (ofString "\n")) 1 2
    (by decide) (by decide) (by decide) (by decide)⟩

/-- Claim C4: the open tag `<n k1="v1" ... >` with a well-formed name,
well-formed attribute names and values free of the double quote, read from
offset 0, yields the tag named `n` with the flag down and exactly the
assignments `(k_i, decode v_i)` in source order; the cursor ends at the end
of the buffer and the line counter has followed the newlines of the
buffer. -/
theorem C4_open_tag_quoted_attrs (decode : Bytes → Bytes) (n : Bytes)
    (kvs : List (Bytes × Bytes)) (lineno : Nat) (hn : wfName n)
    (hkv : ∀ kv ∈ kvs, wfAttrName kv.1 ∧ ∀ c ∈ kv.2, c ≠ 34) (hl : lineno < ULONG_MOD) :
    rbxml_parse_element decode (openTagText n kvs) 0 lineno =
      .ok (.tag ⟨n, kvs.map (fun kv => (kv.1, decode kv.2)), false⟩,
        (openTagText n kvs).length,
        (lineno + (openTagText n kvs).count 10) % ULONG_MOD) := by
  obtain ⟨hn0, hnc, hnp⟩ := hn
  have hview : (openTagText n kvs).drop 0 = 60 :: (n ++ (attrsText kvs ++ [62])) := rfl
  obtain ⟨l1, hl1, hok, _⟩ := parse_named decode (openTagText n kvs) 0 lineno n
    (attrsText kvs ++ [62]) hl hview hn0 hnc hnp (by
      rcases attrsText_head kvs with h | h <;> rw [h] <;> simp [wstagname])
  obtain ⟨_, h1⟩ := (drop_head hview).2
  obtain ⟨_, h2, _⟩ := drop_run h1 (by simp [openTagText])
  have hlen : kvs.length < (openTagText n kvs).length + 1 := by
    have := attrsText_length kvs
    simp only [openTagText, List.length_cons, List.length_append]
    omega
  obtain ⟨hpos, hlast, l', e'⟩ := tagLoop_attrsText decode kvs (openTagText n kvs)
    ((openTagText n kvs).length + 1) (0 + 1 + n.length) l1 ⟨n, [], false⟩ hkv h2 hlen hl1
  have hres := (hok _ _ _ e').1 hlast
  have hfix : (openTagText n kvs).length - 1 + 1 = (openTagText n kvs).length := by omega
  rw [hfix] at hres
  have hp := parse_post decode (openTagText n kvs) 0 lineno (Nat.zero_le _) hl
  rw [hres] at hp
  rw [hres, hp.1.2.2, nlRange_all]
  simp

/-- Claim C4 at `<tag attr="val">`: name `tag`, `attr -> val`, offset 16,
line unchanged. -/
theorem C4_open_tag_quoted_attrs_witness :
    openTagText (ofString "tag") [(ofString "attr", ofString "val")]
      = ofString "<tag attr=\"val\">" ∧
    rbxml_parse_element id (ofString "<tag attr=\"val\">") 0 1 =
      .ok (.tag ⟨ofString "tag", [(ofString "attr", ofString "val")], false⟩, 16, 1) :=
  ⟨by decide, C4_open_tag_quoted_attrs id (ofString "tag") [(ofString "attr", ofString "val")] 1
    (by decide) (by decide) (by decide)⟩

/-- Claim C5: while a tag is scanned, a `'/'` in attribute position (the
first non-blank byte at or after the cursor of a loop turn) followed, after
optional blanks, by `'>'` raises the flag and the call returns the tag with
the cursor after that `'>'`; followed by anything else it fails with the
`expected />` error.  And a returned tag whose flag is raised holds, after
its name, a `'/'` followed only by blanks up to the final `'>'`, so a tag
returned without a `'/'` in attribute position has the flag down. -/
theorem C5_self_closing (decode : Bytes → Bytes) (str : Bytes) :
    (∀ (fuel off lineno o1 o2 : Nat) (t : Tag), off < str.length → byte str off ≠ 62 →
      str.length - off < fuel → lineno < ULONG_MOD → off ≤ o1 →
      (∀ i, off ≤ i → i < o1 → isWhite (byte str i)) → byte str o1 = 47 → o1 < o2 →
      (∀ i, o1 < i → i < o2 → isWhite (byte str i)) → ¬ isWhite (byte str o2) →
      (byte str o2 = 62 → tagRest decode str fuel off lineno t
        = .ok (.tag { t with uniq := true }, o2 + 1,
            (lineno + nlRange str off o2) % ULONG_MOD)) ∧
      (byte str o2 ≠ 62 → tagRest decode str fuel off lineno t
        = .stop (.raised (snprintf255 (msgExpectedClose t.name)) o2
            ((lineno + nlRange str off o2) % ULONG_MOD)))) ∧
    (∀ (off lineno : Nat) (t : Tag) (off' lineno' : Nat), lineno < ULONG_MOD →
      rbxml_parse_element decode str off lineno = .ok (.tag t, off', lineno') →
      t.uniq = true →
      ∃ i, off + 1 + t.name.length ≤ i ∧ i + 1 < off' ∧ byte str i = 47 ∧
        (∀ j, i < j → j + 1 < off' → isWhite (byte str j)) ∧ byte str (off' - 1) = 62) := by
  constructor
  · intro fuel off lineno o1 o2 t hoff hb hfuel hl h01 hw1 h47 h12 hw2 hn2
    obtain ⟨ho2, hyes, hno⟩ := tagLoop_slash decode str fuel off lineno o1 o2 t hoff hb hfuel hl
      h01 hw1 h47 h12 hw2 hn2
    constructor
    · intro h62
      rw [tagRest, hyes h62, Res.ok_bind]
      try dsimp only
      rw [rd_ok ho2, Res.ok_bind, if_neg (by simp [h62])]
      rfl
    · intro h62
      rw [tagRest, hno h62]
      rfl
  · intro off lineno t off' lineno' hl h hu
    have hoff : off ≤ str.length := by
      by_contra hc
      rw [parse_oob decode str off lineno (by omega)] at h
      cases h
    have hc : byte str off = 60 := by
      by_contra hc
      obtain ⟨_, _, _, _, _, _, e⟩ := parse_text decode str off lineno hoff hl hc
      rw [e] at h
      cases h
    obtain ⟨o1, l1, o2, _, h01, _, _, h12, hs2, _, _, _, hcase⟩ :=
      parse_open decode str off lineno hoff hl hc
    rcases hcase with ⟨_, _, _, _, o3, l3, _, _, _, _, hres⟩ | ⟨_, hok, hstop⟩
    · rcases hres with ⟨_, e⟩ | ⟨_, _, e⟩ | ⟨_, _, e⟩ <;> rw [e] at h <;> cases h
    · have hpost := tagLoop_spec decode str (str.length + 1) o2 l1 ⟨slice str o1 o2, [], false⟩
        hs2.2.1 hs2.lt (Or.inl (by omega))
      generalize hr : tagLoop decode str (str.length + 1) o2 l1 ⟨slice str o1 o2, [], false⟩ = r
        at hpost
      match r, hpost with
      | .ok (o, l, t'), hpost =>
        obtain ⟨hs, hname, _, huniq⟩ := hpost
        by_cases h62 : byte str o = 62
        · rw [(hok o l t' hr).1 h62] at h
          cases h
          rcases huniq hu with hfalse | ⟨i, hi1, hi2, hi3, hi4⟩
          · cases hfalse
          · refine ⟨i, ?_, by omega, hi3, fun j hj1 hj2 => hi4 j hj1 (by omega), by simpa using h62⟩
            rw [hname]
            simp only []
            rw [slice_length str o1 o2 hs2.2.1]
            omega
        · rw [(hok o l t' hr).2 h62] at h
          cases h
      | .stop (.raised m o l), _ =>
        rw [hstop _ hr] at h
        cases h

/-- Claim C5 at `<tag/>`: the call returns the tag `tag` with the flag
raised and no attribute, and the cursor at 6. -/
theorem C5_self_closing_witness :
    rbxml_parse_element id (ofString "<tag/>") 0 1
      = .ok (.tag ⟨ofString "tag", [], true⟩, 6, 1) ∧
    tagRest id (ofString "<tag/>") 7 4 1 ⟨ofString "tag", [], false⟩
      = .ok (.tag ⟨ofString "tag", [], true⟩, 5 + 1,
          (1 + nlRange (ofString "<tag/>") 4 5) % ULONG_MOD) ∧
    (∃ i, 0 + 1 + (ofString "tag").length ≤ i ∧ i + 1 < 6 ∧ byte (ofString "<tag/>") i = 47 ∧
      (∀ j, i < j → j + 1 < 6 → isWhite (byte (ofString "<tag/>") j)) ∧
      byte (ofString "<tag/>") (6 - 1) = 62) :=
  ⟨by decide,
   ((C5_self_closing id (ofString "<tag/>")).1 7 4 1 4 5 ⟨ofString "tag", [], false⟩
      (by decide) (by decide) (by decide) (by decide) (by decide)
      (fun i h1 h2 => by omega) (by decide) (by decide) (fun i h1 h2 => by omega)
      (by decide)).1 (by decide),
   (C5_self_closing id (ofString "<tag/>")).2 0 1 ⟨ofString "tag", [], true⟩ 6 1
      (by decide) (by decide) rfl⟩

/-- Claim C6 at the failing input `<!----><a>` (empty body, then more
text): the call does not stop at the `-->` that follows the empty body; it
returns the text `--><a>` with the cursor at 10, where the claim gives the
empty text and the cursor at 7. -/
theorem C6_empty_comment_failing_input :
    rbxml_parse_element id (ofString "<!----><a>") 0 1
      = .ok (.comment (ofString "--><a>"), 10, 1) := by
  decide

/-- Claim C7: at a cursor whose byte is not `'<'`, with `j` the least index
at or after the cursor that holds `'<'` (the length of the buffer when there
is none) and no NUL byte before `j`, the call returns the decoded bytes
`str[off, j)` as text and leaves the cursor at `j`, the `'<'` unconsumed;
the line counter follows the newlines of the text (modulo `2 ^ 64`). -/
theorem C7_raw_text (decode : Bytes → Bytes) (str : Bytes) (off lineno j : Nat)
    (hc : byte str off ≠ 60) (hoj : off ≤ j) (hj : j ≤ str.length)
    (hlt : j < str.length → byte str j = 60)
    (hbefore : ∀ i, off ≤ i → i < j → byte str i ≠ 60 ∧ byte str i ≠ 0)
    (hl : lineno < ULONG_MOD) :
    rbxml_parse_element decode str off lineno =
      .ok (.text (decode (slice str off j)), j,
        (lineno + nlRange str off j) % ULONG_MOD) := by
  obtain ⟨o, l, _, hs, hrun, hstop, e⟩ :=
    parse_text decode str off lineno (Nat.le_trans hoj hj) hl hc
  have hoj' : o = j := by
    apply first_unique (fun i => byte str i = 0 ∨ byte str i = 60) off o j
    · intro i hi1 hi2 hP
      have := hrun i hi1 hi2
      omega
    · exact hstop
    · intro i hi1 hi2 hP
      have := hbefore i hi1 hi2
      omega
    · by_cases h : j < str.length
      · exact Or.inr (hlt h)
      · exact Or.inl (byte_of_le (by omega))
    · exact hs.1
    · exact hoj
  subst hoj'
  rw [e, hs.2.2]

/-- Claim C7 at `plain text<end>`: text `plain text`, cursor at 10. -/
theorem C7_raw_text_witness :
    slice (ofString "plain text<end>") 0 10 = ofString "plain text" ∧
    rbxml_parse_element id (ofString "plain text<end>") 0 1 =
      .ok (.text (id (slice (ofString "plain text<end>") 0 10)), 10,
        (1 + nlRange (ofString "plain text<end>") 0 10) % ULONG_MOD) :=
  ⟨by decide, C7_raw_text id (ofString "plain text<end>") 0 1 10 (by decide) (by decide)
    (by decide) (fun _ => by decide)
    (by
      have h : ∀ i, i < 10 → byte (ofString "plain text<end>") i ≠ 60 ∧
          byte (ofString "plain text<end>") i ≠ 0 := by decide
      exact fun i _ hi => h i hi)
    (by decide)⟩

/-- Claim C8, as stated, fails: the buffer `<!-- hi` holds no `-->`, and the
call returns a comment with the text ` hi` instead of failing. -/
theorem C8_unterminated_comment_counterexample :
    rbxml_parse_element id (ofString "<!-- hi") 0 1
      = .ok (.comment (ofString " hi"), 7, 1) := by
  decide

/-- Claim C8, amended: on a buffer that holds `<!--` at the cursor, has no
NUL byte and no `-->` after that opening marker, and does not end with `->`,
the call raises no error: it returns the comment whose text is everything
after the opening marker, with the cursor at the end of the buffer and the
line counter advanced by the newlines consumed (modulo `2 ^ 64`). -/
theorem C8_unterminated_comment_returned (decode : Bytes → Bytes) (str : Bytes)
    (off lineno : Nat) (rest : Bytes) (hl : lineno < ULONG_MOD)
    (hview : str.drop off = 60 :: 33 :: 45 :: 45 :: rest) (hnul : ∀ c ∈ rest, c ≠ 0)
    (hno : ¬ ([45, 45, 62] <:+: rest)) (hend : ¬ ([45, 62] <:+ str)) :
    rbxml_parse_element decode str off lineno =
      .ok (.comment rest, str.length, (lineno + nlRange str off str.length) % ULONG_MOD) := by
  obtain ⟨hlen4, h4, l1, o2, o3, l3, h2, _, _, hs3, _, hstop, hres⟩ :=
    parse_comment_open decode str off lineno rest hl hview
  obtain ⟨hle, hdrop, hslice, hmem, _⟩ :=
    drop_run (show str.drop (off + 4) = rest ++ [] by simpa using h4) hlen4
  have hlen : off + 4 + rest.length = str.length := drop_end hdrop hle
  have hnoclose : ∀ j, ¬ closing str (off + 4) j := by
    intro j hc
    obtain ⟨_, _, hp⟩ := closing_view h4 hlen4 hc
    exact hno (hp.isInfix.trans (List.drop_suffix _ _).isInfix)
  have ho3 : o3 = str.length := by
    rcases hstop with ⟨hz, _⟩ | ⟨_, hc, _⟩
    · have h23 := hs3.1
      have h3 := hs3.2.1
      by_contra hne
      exact hnul _ (hmem o3 (by omega) (by omega)) hz
    · exact absurd hc (hnoclose _)
  subst ho3
  have hnostrip : ¬ (byte str (str.length - 1) = 62 ∧ byte str (str.length - 2) = 45 ∧
      byte str (str.length - 3) ≠ 0) := by
    rintro ⟨c1, c2, _⟩
    apply hend
    have := suffix_two str (by omega)
    rwa [c1, c2] at this
  have hp := parse_post decode str off lineno (by omega) hl
  rcases hres with ⟨_, e⟩ | ⟨c, _⟩ | ⟨c, _⟩
  · rw [e] at hp
    rw [e, hp.1.2.2, ← hlen, hslice]
  · exact absurd c hnostrip
  · exact absurd c hnostrip

/-- Claim C8, amended, at the buffer `ab<!-- hi` read from offset 2. -/
theorem C8_unterminated_comment_returned_witness :
    (ofString "ab<!-- hi").drop 2 = 60 :: 33 :: 45 :: 45 :: ofString " hi" ∧
    rbxml_parse_element id (ofString "ab<!-- hi") 2 1 =
      .ok (.comment (ofString " hi"), (ofString "ab<!-- hi").length,
        (1 + nlRange (ofString "ab<!-- hi") 2 (ofString "ab<!-- hi").length) % ULONG_MOD) :=
  ⟨by decide, C8_unterminated_comment_returned id (ofString "ab<!-- hi") 2 1 (ofString " hi")
    (by decide) (by decide) (by decide) (by decide) (by decide)⟩

set_option maxRecDepth 100000 in
/-- Claim C9, as stated, fails: with a tag name of 240 bytes the message of
the `unclosed quote` error is cut after 254 bytes, inside the tag name, and
does not hold the attribute name `k`. -/
theorem C9_unclosed_quote_message_counterexample :
    wfName (List.replicate 240 97) ∧ wfAttrName [107] ∧
    rbxml_parse_element id (unclosedQuoteText (List.replicate 240 97) [107] 34 []) 0 1
      = .stop (.raised (ofString "unclosed quote in <" ++ List.replicate 235 97) 245 1) ∧
    ¬ ([107] <:+: (ofString "unclosed quote in <" ++ List.replicate 235 97)) := by
  decide

/-- Claim C9, amended: on the buffer `<n k=qv` that ends inside a quoted
value (`n` and `k` well-formed, `q` one of the two quote bytes, `v` free of
`q`), the call returns no tag: it fails with the `unclosed quote` error,
cursor at the end of the buffer, whose message is `unclosed quote in <n k=`
cut to its first 254 bytes; the message is that whole text, naming both `n`
and `k`, whenever the two names have at most 233 bytes together. -/
theorem C9_unclosed_quote (decode : Bytes → Bytes) (n k : Bytes) (q : Nat) (v : Bytes)
    (lineno : Nat) (hn : wfName n) (hk : wfAttrName k) (hq : q = 34 ∨ q = 39)
    (hv : ∀ c ∈ v, c ≠ q) (hl : lineno < ULONG_MOD) :
    (∃ lineno', rbxml_parse_element decode (unclosedQuoteText n k q v) 0 lineno
      = .stop (.raised (snprintf255 (msgUnclosedQuote n k))
          (unclosedQuoteText n k q v).length lineno')) ∧
    (n.length + k.length ≤ 233 → snprintf255 (msgUnclosedQuote n k)
      = ofString "unclosed quote in <" ++ n ++ [32] ++ k ++ [61]) := by
  obtain ⟨hn0, hnc, hnp⟩ := hn
  obtain ⟨hk0, hka, hkc⟩ := hk
  constructor
  · have hview : (unclosedQuoteText n k q v).drop 0 = 60 :: (n ++ 32 :: (k ++ 61 :: q :: v)) :=
      rfl
    obtain ⟨l1, hl1, _, hstop⟩ := parse_named decode (unclosedQuoteText n k q v) 0 lineno n
      (32 :: (k ++ 61 :: q :: v)) hl hview hn0 hnc hnp (by simp [wstagname])
    generalize unclosedQuoteText n k q v = str at hview hstop ⊢
    obtain ⟨hlt0, _, h1⟩ := drop_head hview
    obtain ⟨hle1, h2, _, _, _⟩ := drop_run h1 hlt0
    obtain ⟨hlt2, hb2, h3⟩ := drop_head h2
    obtain ⟨hle3, h4, hsk, hkm, hkb⟩ := drop_run h3 hlt2
    obtain ⟨hlt4, hb4, h5⟩ := drop_head h4
    obtain ⟨hlt5, hb5, h6⟩ := drop_head h5
    obtain ⟨hle6, h7, _, hvm, _⟩ :=
      drop_run (show str.drop (0 + 1 + n.length + 1 + k.length + 1 + 1) = v ++ [] by
        simpa using h6) hlt5
    have hlen := drop_end h7 hle6
    have hkpos : 0 < k.length := List.length_pos.mpr hk0
    have hfirst : byte str (0 + 1 + n.length + 1) = byte k 0 := hkb 0 hkpos
    obtain ⟨l3, hl3, e3⟩ := tagLoop_attr decode str str.length (0 + 1 + n.length) l1
      (0 + 1 + n.length + 1) (0 + 1 + n.length + 1 + k.length)
      (0 + 1 + n.length + 1 + k.length) ⟨n, [], false⟩ hlt2 (by omega) (by omega)
      (fun i hi1 hi2 => by
        have : i = 0 + 1 + n.length := by omega
        rw [this, hb2]; simp [isWhite])
      (by rw [hfirst]; exact hka) (by omega) hle3
      (fun i hi1 hi2 => hkc _ (hkm i hi1 hi2))
      (fun _ => by rw [hb4]; rfl) (Nat.le_refl _) hle3
      (fun i hi1 hi2 => by omega)
      (by rw [hb4]; simp [isWhite]) hl1
    obtain ⟨l4, _, e4⟩ := attrValue_quoted str n
      (slice str (0 + 1 + n.length + 1) (0 + 1 + n.length + 1 + k.length))
      (0 + 1 + n.length + 1 + k.length) l3
      (0 + 1 + n.length + 1 + k.length + 1) str.length q hb4 (by omega)
      (fun i hi1 hi2 => by omega) hb5 hq (by omega) (Nat.le_refl _)
      (fun i hi1 hi2 => hv _ (hvm i (by omega) (by omega))) (fun h => by omega) hl3
    have hz : byte str str.length ≠ q := by
      rw [byte_of_le (Nat.le_refl _)]
      omega
    rw [if_neg hz, hsk] at e4
    refine ⟨l4, hstop _ ?_⟩
    rw [e3, hsk, e4]
    rfl
  · intro hlen
    have hn' : cstr n = n := cstr_eq n (fun c hc => (hnc c hc).2.2.2.2.2.2)
    have hk' : cstr k = k := cstr_eq k (fun c hc => attrNameChar_ne_zero c (hkc c hc))
    unfold snprintf255 msgUnclosedQuote
    rw [hn', hk']
    apply List.take_of_length_le
    simp only [List.length_append, List.length_cons, List.length_nil]
    omega

/-- Claim C9, amended, at `<tag attr="unterminated`. -/
theorem C9_unclosed_quote_witness :
    unclosedQuoteText (ofString "tag") (ofString "attr") 34 (ofString "unterminated")
      = ofString "<tag attr=\"unterminated" ∧
    (∃ lineno', rbxml_parse_element id (ofString "<tag attr=\"unterminated") 0 1
      = .stop (.raised (ofString "unclosed quote in <tag attr=") 23 lineno')) ∧
    ((ofString "tag").length + (ofString "attr").length ≤ 233 →
      snprintf255 (msgUnclosedQuote (ofString "tag") (ofString "attr"))
        = ofString "unclosed quote in <tag attr=") :=
  ⟨by decide, C9_unclosed_quote id (ofString "tag") (ofString "attr") 34
    (ofString "unterminated") 1 (by decide) (by decide) (by decide) (by decide) (by decide)⟩

/-- Claim C10: a tag is returned only with the cursor just after a `'>'`;
and at a `'<'` that does not open a comment, in a buffer with no `'>'` at or
after the cursor, the call fails with a parse error. -/
theorem C10_tag_needs_closing (decode : Bytes → Bytes) (str : Bytes) :
    (∀ (off lineno : Nat) (t : Tag) (off' lineno' : Nat), lineno < ULONG_MOD →
      rbxml_parse_element decode str off lineno = .ok (.tag t, off', lineno') →
      0 < off' ∧ byte str (off' - 1) = 62) ∧
    (∀ (off lineno : Nat), lineno < ULONG_MOD → byte str off = 60 →
      commentAt str off = false → (∀ i, off ≤ i → byte str i ≠ 62) →
      ∃ msg off' lineno', rbxml_parse_element decode str off lineno
        = .stop (.raised msg off' lineno')) := by
  constructor
  · intro off lineno t off' lineno' hl h
    by_cases hoff : off ≤ str.length
    · have hp := parse_post decode str off lineno hoff hl
      rw [h] at hp
      exact hp.2.2 t rfl
    · rw [parse_oob decode str off lineno (by omega)] at h
      cases h
  · intro off lineno hl hc hca hno
    have hlt : off < str.length := byte_lt_of_ne_zero (by omega)
    obtain ⟨o1, l1, o2, _, h01, hw1, hn1, h12, hs2, _, _, _, hcase⟩ :=
      parse_open decode str off lineno (Nat.le_of_lt hlt) hl hc
    rcases hcase with ⟨c0, c1, c2, _⟩ | ⟨_, hok, hstop⟩
    · exfalso
      obtain ⟨p, m, e0, hs0, hp0, hq0⟩ :=
        skipspaces_spec str (str.length + 1) (off + 1) 0 hlt (by omega) (by decide)
      have : p = o1 := first_nonwhite_unique str (off + 1) p o1 hp0 hq0
        (fun i hi1 hi2 => hw1 i hi1 hi2) hn1 hs0.1 h01
      subst this
      unfold commentAt at hca
      rw [e0] at hca
      simp [c0, c1, c2] at hca
    · have hpost := tagLoop_spec decode str (str.length + 1) o2 l1 ⟨slice str o1 o2, [], false⟩
        hs2.2.1 hs2.lt (Or.inl (by omega))
      generalize hr : tagLoop decode str (str.length + 1) o2 l1 ⟨slice str o1 o2, [], false⟩ = r
        at hpost
      match r, hpost with
      | .ok (o, l, t), hpost =>
        have h2o := hpost.1.1
        have h62 : byte str o ≠ 62 := hno o (by omega)
        exact ⟨_, _, _, (hok o l t hr).2 h62⟩
      | .stop (.raised m o l), _ =>
        exact ⟨_, _, _, hstop _ hr⟩

/-- Claim C10 at `<a>` (a tag returned with the cursor after its `'>'`) and
at the unclosed `<a b` (a parse error). -/
theorem C10_tag_needs_closing_witness :
    rbxml_parse_element id (ofString "<a>") 0 1 = .ok (.tag ⟨ofString "a", [], false⟩, 3, 1) ∧
    (0 < 3 ∧ byte (ofString "<a>") (3 - 1) = 62) ∧
    (∃ msg off' lineno', rbxml_parse_element id (ofString "<a b") 0 1
      = .stop (.raised msg off' lineno')) :=
  ⟨by decide,
   (C10_tag_needs_closing id (ofString "<a>")).1 0 1 ⟨ofString "a", [], false⟩ 3 1
     (by decide) (by decide),
   (C10_tag_needs_closing id (ofString "<a b")).2 0 1 (by decide) (by decide) (by decide)
     (fun i _ => by
       by_cases h : i < 4
       · have h4 : ∀ j, j < 4 → byte (ofString "<a b") j ≠ 62 := by decide
         exact h4 i h
       · rw [byte_of_le (by
           have : (ofString "<a b").length = 4 := by decide
           omega)]
         decide)⟩

/-- Claim C11, as stated, fails: `<>` returns a tag whose name is empty. -/
theorem C11_nonempty_name_counterexample :
    rbxml_parse_element id (ofString "<>") 0 1 = .ok (.tag ⟨[], [], false⟩, 2, 1) := by
  decide

/-- Claim C11, amended: with `o1` the first non-blank byte after the `'<'`,
a returned tag has a name of at least one byte unless the byte at `o1` is
`'>'`; in that case the returned tag has the empty name, no attribute and
the flag down, and the cursor is just after that `'>'`. -/
theorem C11_name_nonempty_unless_immediate_close (decode : Bytes → Bytes) (str : Bytes)
    (off lineno : Nat) (t : Tag) (off' lineno' : Nat) (hl : lineno < ULONG_MOD)
    (h : rbxml_parse_element decode str off lineno = .ok (.tag t, off', lineno')) :
    ∃ o1, off < o1 ∧ (∀ i, off < i → i < o1 → isWhite (byte str i)) ∧
      ¬ isWhite (byte str o1) ∧
      (byte str o1 ≠ 62 → 1 ≤ t.name.length) ∧
      (byte str o1 = 62 → t = ⟨[], [], false⟩ ∧ off' = o1 + 1) := by
  obtain ⟨o1, l1, o2, o, h01, hw1, hn1, hl1, hsel, ho2, hrun, hstop, hname, h2o, h62, hoff', hloop⟩ :=
    parse_tag_shape decode str off lineno t off' lineno' hl h
  refine ⟨o1, h01, hw1, hn1, ?_, ?_⟩
  · intro hne
    rw [hname, slice_length str o1 o2 ho2]
    by_contra hlen
    have h47 : byte str o1 ≠ 47 := by
      intro h47
      rw [if_pos h47] at hsel
      omega
    rw [if_neg h47] at hsel
    have e12 : o2 = o1 := by omega
    subst e12
    have hz : byte str o2 = 0 := by
      rcases hstop with hz | hm
      · exact hz
      · simp [wstagname] at hm
        unfold isWhite at hn1
        omega
    by_cases hlt : o2 < str.length
    · obtain ⟨p1, m1, _, hs1, hp1, hq1, hcase⟩ :=
        tagLoop_step decode str str.length o2 l1 ⟨slice str o2 o2, [], false⟩ hlt (by omega) hl1
      have e1 : p1 = o2 := first_nonwhite_unique str o2 p1 o2 hp1 hq1 (fun i hi1 hi2 => by omega)
        hn1 hs1.1 (Nat.le_refl _)
      subst e1
      rcases hcase with ⟨c, _⟩ | ⟨c, _⟩ | ⟨c, _⟩ | ⟨c, _⟩ | ⟨_, _, _, _, e⟩
      · omega
      · omega
      · omega
      · rw [hz] at c
        simp [isAlpha] at c
      · rw [e] at hloop
        cases hloop
    · rw [tagLoop_exit decode str str.length o2 l1 _ (Or.inl (by omega))] at hloop
      cases hloop
      omega
  · intro h62'
    have h47 : byte str o1 ≠ 47 := by omega
    rw [if_neg h47] at hsel hrun
    have e12 : o2 = o1 := by
      by_contra hne
      have := (hrun o1 (Nat.le_refl _) (by omega)).2
      rw [h62'] at this
      simp [wstagname] at this
    subst e12
    rw [tagLoop_exit decode str str.length o2 l1 _ (Or.inr h62')] at hloop
    cases hloop
    refine ⟨?_, hoff'⟩
    simp [slice]

/-- Claim C11, amended, at `<a>` (name of one byte) read from offset 0. -/
theorem C11_name_nonempty_unless_immediate_close_witness :
    rbxml_parse_element id (ofString "<a>") 0 1 = .ok (.tag ⟨ofString "a", [], false⟩, 3, 1) ∧
    ∃ o1, 0 < o1 ∧ (∀ i, 0 < i → i < o1 → isWhite (byte (ofString "<a>") i)) ∧
      ¬ isWhite (byte (ofString "<a>") o1) ∧
      (byte (ofString "<a>") o1 ≠ 62 → 1 ≤ (⟨ofString "a", [], false⟩ : Tag).name.length) ∧
      (byte (ofString "<a>") o1 = 62 →
        (⟨ofString "a", [], false⟩ : Tag) = ⟨[], [], false⟩ ∧ 3 = o1 + 1) :=
  ⟨by decide, C11_name_nonempty_unless_immediate_close id (ofString "<a>") 0 1
    ⟨ofString "a", [], false⟩ 3 1 (by decide) (by decide)⟩

/-- Claim C12: while a tag is scanned, a `'?'` in attribute position (the
first non-blank byte at or after the cursor of a loop turn) makes the call
fail with the `invalid ?` error when the tag name does not begin with `'?'`;
when it does, that one byte is consumed, the tag is left as it is, the scan
goes on after it, and the call does not fail with the `invalid ?` error. -/
theorem C12_question_mark (decode : Bytes → Bytes) (str : Bytes) (fuel off lineno o1 : Nat)
    (t : Tag) (hoff : off < str.length) (hb : byte str off ≠ 62) (hl : lineno < ULONG_MOD)
    (h01 : off ≤ o1) (hw1 : ∀ i, off ≤ i → i < o1 → isWhite (byte str i))
    (h63 : byte str o1 = 63) :
    (byte t.name 0 ≠ 63 → tagRest decode str (fuel + 1) off lineno t
      = .stop (.raised (snprintf255 (msgInvalidQuestion t.name)) o1
          ((lineno + nlRange str off o1) % ULONG_MOD))) ∧
    (byte t.name 0 = 63 →
      tagRest decode str (fuel + 1) off lineno t
        = tagRest decode str fuel (o1 + 1) ((lineno + nlRange str off o1) % ULONG_MOD) t ∧
      ∀ o l, tagRest decode str (fuel + 1) off lineno t
        ≠ .stop (.raised (snprintf255 (msgInvalidQuestion t.name)) o l)) := by
  obtain ⟨hlt1, hl1, hno, hyes⟩ :=
    tagLoop_question decode str fuel off lineno o1 t hoff hb hl h01 hw1 h63
  constructor
  · intro hname
    rw [tagRest, hno hname]
    rfl
  · intro hname
    have e : tagRest decode str (fuel + 1) off lineno t
        = tagRest decode str fuel (o1 + 1) ((lineno + nlRange str off o1) % ULONG_MOD) t := by
      rw [tagRest, hyes hname, tagRest]
    refine ⟨e, fun o l => ?_⟩
    rw [e]
    exact tagRest_no_question decode str fuel (o1 + 1) _ t hname hlt1 hl1 o l

/-- Claim C12 at `<?xml version="1.0" ?>`: the call returns the tag `?xml`
with `version -> 1.0`, and the loop turn entered at the blank before the
second `'?'` consumes that byte and leaves the tag as it is. -/
theorem C12_question_mark_witness :
    rbxml_parse_element id (ofString "<?xml version=\"1.0\" ?>") 0 1
      = .ok (.tag ⟨ofString "?xml", [(ofString "version", ofString "1.0")], false⟩, 22, 1) ∧
    byte (ofString "<?xml version=\"1.0\" ?>") 20 = 63 ∧
    (byte (ofString "?xml") 0 = 63 →
      tagRest id (ofString "<?xml version=\"1.0\" ?>") (2 + 1) 19 1
          ⟨ofString "?xml", [(ofString "version", ofString "1.0")], false⟩
        = tagRest id (ofString "<?xml version=\"1.0\" ?>") 2 (20 + 1)
            ((1 + nlRange (ofString "<?xml version=\"1.0\" ?>") 19 20) % ULONG_MOD)
            ⟨ofString "?xml", [(ofString "version", ofString "1.0")], false⟩ ∧
      ∀ o l, tagRest id (ofString "<?xml version=\"1.0\" ?>") (2 + 1) 19 1
          ⟨ofString "?xml", [(ofString "version", ofString "1.0")], false⟩
        ≠ .stop (.raised (snprintf255 (msgInvalidQuestion (ofString "?xml"))) o l)) :=
  ⟨by decide, by decide,
   (C12_question_mark id (ofString "<?xml version=\"1.0\" ?>") 2 19 1 20
      ⟨ofString "?xml", [(ofString "version", ofString "1.0")], false⟩
      (by decide) (by decide) (by decide) (by decide)
      (fun i h1 h2 => by
        have : i = 19 := by omega
        rw [this]; decide)
      (by decide)).2⟩

/-- Claim C13: on the buffer `<n k>` with a well-formed tag name and a
well-formed attribute name, the call returns the tag `n` whose single
assignment is `(k, decode k)`: with no `'='` after the attribute name, the
value handed to the decoder is the name itself.  The flag is down, the
cursor ends at the end of the buffer and the line counter is unchanged. -/
theorem C13_bare_attribute (decode : Bytes → Bytes) (n k : Bytes) (lineno : Nat)
    (hn : wfName n) (hk : wfAttrName k) (hl : lineno < ULONG_MOD) :
    rbxml_parse_element decode (bareAttrText n k) 0 lineno =
      .ok (.tag ⟨n, [(k, decode k)], false⟩, (bareAttrText n k).length, lineno) := by
  obtain ⟨hn0, hnc, hnp⟩ := hn
  obtain ⟨hk0, hka, hkc⟩ := hk
  have hcount : (bareAttrText n k).count 10 = 0 := by
    rw [List.count_eq_zero]
    intro hmem
    simp only [bareAttrText, List.mem_cons, List.mem_append, List.mem_singleton] at hmem
    rcases hmem with h | h | h | h | h
    · omega
    · exact (hnc 10 h).2.2.2.1 rfl
    · omega
    · have := hkc 10 h
      simp [attrNameChar] at this
    · simp at h
  have hview : (bareAttrText n k).drop 0 = 60 :: (n ++ 32 :: (k ++ [62])) := rfl
  obtain ⟨l1, hl1, hok, _⟩ := parse_named decode (bareAttrText n k) 0 lineno n
    (32 :: (k ++ [62])) hl hview hn0 hnc hnp (by simp [wstagname])
  have hp := parse_post decode (bareAttrText n k) 0 lineno (Nat.zero_le _) hl
  generalize bareAttrText n k = str at hview hok hp hcount ⊢
  obtain ⟨hlt0, _, h1⟩ := drop_head hview
  obtain ⟨hle1, h2, _, _, _⟩ := drop_run h1 hlt0
  obtain ⟨hlt2, hb2, h3⟩ := drop_head h2
  obtain ⟨hle3, h4, hsk, hkm, hkb⟩ := drop_run h3 hlt2
  obtain ⟨hlt4, hb4, h5⟩ := drop_head h4
  have hlen := drop_end h5 hlt4
  have hkpos : 0 < k.length := List.length_pos.mpr hk0
  have hfirst : byte str (0 + 1 + n.length + 1) = byte k 0 := hkb 0 hkpos
  obtain ⟨f, hf⟩ : ∃ f, str.length = f + 1 := ⟨str.length - 1, by omega⟩
  obtain ⟨l3, hl3, e3⟩ := tagLoop_attr decode str str.length (0 + 1 + n.length) l1
    (0 + 1 + n.length + 1) (0 + 1 + n.length + 1 + k.length)
    (0 + 1 + n.length + 1 + k.length) ⟨n, [], false⟩ hlt2 (by omega) (by omega)
    (fun i hi1 hi2 => by
      have : i = 0 + 1 + n.length := by omega
      rw [this, hb2]; simp [isWhite])
    (by rw [hfirst]; exact hka) (by omega) hle3
    (fun i hi1 hi2 => hkc _ (hkm i hi1 hi2))
    (fun _ => by rw [hb4]; rfl) (Nat.le_refl _) hle3
    (fun i hi1 hi2 => by omega)
    (by rw [hb4]; simp [isWhite]) hl1
  rw [attrValue_bare str _ n _ _ l3 hle3 (by omega), Res.ok_bind, hsk] at e3
  try dsimp only at e3
  have e3' : tagLoop decode str (str.length + 1) (0 + 1 + n.length) l1 ⟨n, [], false⟩
      = .ok (0 + 1 + n.length + 1 + k.length, l3, ⟨n, [(k, decode k)], false⟩) := by
    rw [e3]
    conv => lhs; rw [hf]
    rw [tagLoop_exit decode str f _ l3 _ (Or.inr hb4)]
    simp
  have hres := (hok _ _ _ e3').1 hb4
  rw [hres] at hp
  have hl3' := hp.1.2.2
  rw [hlen, nlRange_all, hcount, Nat.add_zero, Nat.mod_eq_of_lt hl] at hl3'
  rw [hres, hl3', hlen]

/-- Claim C13 at `<a checked>`: the single assignment is `checked ->
checked`. -/
theorem C13_bare_attribute_witness :
    bareAttrText (ofString "a") (ofString "checked") = ofString "<a checked>" ∧
    rbxml_parse_element id (ofString "<a checked>") 0 1 =
      .ok (.tag ⟨ofString "a", [(ofString "checked", ofString "checked")], false⟩, 11, 1) :=
  ⟨by decide, C13_bare_attribute id (ofString "a") (ofString "checked") 1
    (by decide) (by decide) (by decide)⟩

set_option maxRecDepth 100000 in
/-- Claim C14, as stated, fails: with a tag name of 240 bytes the message of
the `invalid attribute` error is cut after 254 bytes and holds only the
first 231 bytes of the tag name. -/
theorem C14_invalid_attribute_message_counterexample :
    rbxml_parse_element id (60 :: (List.replicate 240 97 ++ ofString " 1>")) 0 1
      = .stop (.raised (ofString "invalid attribute for <" ++ List.replicate 231 97) 242 1) ∧
    ¬ (List.replicate 240 97 <:+: (ofString "invalid attribute for <" ++ List.replicate 231 97)) := by
  decide

/-- Claim C14, amended: while a tag is scanned, when the first non-blank
byte at or after the cursor of a loop turn is none of `'>'`, `'/'`, `'?'`
and the ASCII letters, the call returns no tag: it fails with the
`invalid attribute` error, cursor on that byte, whose message is
`invalid attribute for <name` cut to its first 254 bytes; the message holds
the whole tag name whenever the name has at most 231 bytes. -/
theorem C14_invalid_attribute_start (decode : Bytes → Bytes) (str : Bytes)
    (fuel off lineno o1 : Nat) (t : Tag) (hoff : off < str.length) (hb : byte str off ≠ 62)
    (hl : lineno < ULONG_MOD) (h01 : off ≤ o1)
    (hw1 : ∀ i, off ≤ i → i < o1 → isWhite (byte str i)) (hn1 : ¬ isWhite (byte str o1))
    (h62 : byte str o1 ≠ 62) (h47 : byte str o1 ≠ 47) (h63 : byte str o1 ≠ 63)
    (ha : isAlpha (byte str o1) = false) :
    tagRest decode str (fuel + 1) off lineno t
      = .stop (.raised (snprintf255 (msgInvalidAttribute t.name)) o1
          ((lineno + nlRange str off o1) % ULONG_MOD)) ∧
    ((∀ c ∈ t.name, c ≠ 0) → t.name.length ≤ 231 →
      snprintf255 (msgInvalidAttribute t.name) = ofString "invalid attribute for <" ++ t.name) := by
  constructor
  · obtain ⟨p1, l1, _, hs1, hp1, hq1, hcase⟩ :=
      tagLoop_step decode str fuel off lineno t hoff hb hl
    have e1 : p1 = o1 := first_nonwhite_unique str off p1 o1 hp1 hq1 hw1 hn1 hs1.1 h01
    subst e1
    rcases hcase with ⟨c, _⟩ | ⟨c, _⟩ | ⟨c, _⟩ | ⟨c, _⟩ | ⟨_, _, _, _, e⟩
    · exact absurd c h62
    · exact absurd c h47
    · exact absurd c h63
    · rw [ha] at c
      cases c
    · rw [tagRest, e, hs1.2.2]
      rfl
  · intro hnul hlen
    unfold snprintf255 msgInvalidAttribute
    rw [cstr_eq t.name hnul]
    apply List.take_of_length_le
    simp only [List.length_append, List.length_cons, List.length_nil]
    omega

/-- Claim C14, amended, at `<a 1>`: the loop turn entered at the blank after
the name finds the digit at offset 3. -/
theorem C14_invalid_attribute_start_witness :
    rbxml_parse_element id (ofString "<a 1>") 0 1
      = .stop (.raised (ofString "invalid attribute for <a") 3 1) ∧
    tagRest id (ofString "<a 1>") (5 + 1) 2 1 ⟨ofString "a", [], false⟩
      = .stop (.raised (snprintf255 (msgInvalidAttribute (ofString "a"))) 3
          ((1 + nlRange (ofString "<a 1>") 2 3) % ULONG_MOD)) ∧
    ((∀ c ∈ ofString "a", c ≠ 0) → (ofString "a").length ≤ 231 →
      snprintf255 (msgInvalidAttribute (ofString "a")) = ofString "invalid attribute for <" ++
        ofString "a") :=
  ⟨by decide, C14_invalid_attribute_start id (ofString "<a 1>") 5 2 1 3
    ⟨ofString "a", [], false⟩ (by decide) (by decide) (by decide) (by decide)
    (fun i h1 h2 => by
      have : i = 2 := by omega
      rw [this]; decide)
    (by decide) (by decide) (by decide) (by decide) (by decide)⟩

/-- Claim C15: for a cursor inside the buffer the call ends: it returns a
node, raises a parse error, or has the host raise on a negative copy length;
the loop fuel `len + 1` of the model is never used up.  One turn of
`skipspaces`, of the comment loop and of the raw-text loop leaves the loop or
goes on at a strictly larger cursor inside the buffer; one turn of the
attribute loop leaves the loop, raises, or goes on at a strictly larger
cursor inside the buffer. -/
theorem C15_terminates (decode : Bytes → Bytes) (str : Bytes) :
    (∀ (off lineno : Nat), off ≤ str.length → lineno < ULONG_MOD →
      (∃ node off' lineno', rbxml_parse_element decode str off lineno
          = .ok (node, off', lineno')) ∨
      (∃ msg off' lineno', rbxml_parse_element decode str off lineno
          = .stop (.raised msg off' lineno')) ∨
      rbxml_parse_element decode str off lineno = .stop .badlen) ∧
    (∀ (fuel off lineno : Nat), off ≤ str.length →
      (∃ r, skipspaces str (fuel + 1) off lineno = .ok r) ∨
      (∃ o' l', off < o' ∧ o' ≤ str.length ∧
        skipspaces str (fuel + 1) off lineno = skipspaces str fuel o' l')) ∧
    (∀ (off_start fuel off lineno : Nat), off ≤ str.length →
      (∃ r, commentLoop str off_start (fuel + 1) off lineno = .ok r) ∨
      (∃ o' l', off < o' ∧ o' ≤ str.length ∧
        commentLoop str off_start (fuel + 1) off lineno = commentLoop str off_start fuel o' l')) ∧
    (∀ (fuel off lineno : Nat), off ≤ str.length →
      (∃ r, textLoop str (fuel + 1) off lineno = .ok r) ∨
      (∃ o' l', off < o' ∧ o' ≤ str.length ∧
        textLoop str (fuel + 1) off lineno = textLoop str fuel o' l')) ∧
    (∀ (fuel off lineno : Nat) (t : Tag), off ≤ str.length → lineno < ULONG_MOD →
      (∃ r, tagLoop decode str (fuel + 1) off lineno t = .ok r) ∨
      (∃ msg o l, tagLoop decode str (fuel + 1) off lineno t = .stop (.raised msg o l)) ∨
      (∃ o' l' t', off < o' ∧ o' ≤ str.length ∧
        tagLoop decode str (fuel + 1) off lineno t = tagLoop decode str fuel o' l' t')) := by
  refine ⟨?_, ?_, ?_, ?_, ?_⟩
  · intro off lineno hoff hl
    have hp := parse_post decode str off lineno hoff hl
    generalize rbxml_parse_element decode str off lineno = r at hp
    match r, hp with
    | .ok (node, off', lineno'), _ => exact Or.inl ⟨_, _, _, rfl⟩
    | .stop (.raised msg o l), _ => exact Or.inr (Or.inl ⟨_, _, _, rfl⟩)
    | .stop .badlen, _ => exact Or.inr (Or.inr rfl)
  · intro fuel off lineno hoff
    obtain ⟨n, en, h1, _, _⟩ := strspn_spec str off hoff spacewhite
    rw [skipspaces, en, Res.ok_bind, rd_ok h1, Res.ok_bind]
    by_cases hc : byte str (off + n) = 10
    · right
      have hlt : off + n < str.length := byte_lt_of_ne_zero (by omega)
      exact ⟨off + n + 1, _, by omega, hlt, by rw [if_neg (by simp [hc])]⟩
    · left
      exact ⟨_, by rw [if_pos (by simpa using hc)]; rfl⟩
  · intro off_start fuel off lineno hoff
    obtain ⟨n, en, h1, _, _⟩ := strcspn_spec str off hoff [10, 62]
    rw [commentLoop, en, Res.ok_bind, rd_ok h1, Res.ok_bind]
    by_cases hc : byte str (off + n) = 10
    · right
      have hlt : off + n < str.length := byte_lt_of_ne_zero (by omega)
      exact ⟨off + n + 1, _, by omega, hlt, by rw [if_pos (by simp [hc])]⟩
    · rw [if_neg (by simpa using hc)]
      by_cases hc2 : byte str (off + n) = 62
      · have hlt : off + n < str.length := byte_lt_of_ne_zero (by omega)
        obtain ⟨b, eb, _⟩ := commentClosed_spec str off_start (off + n + 1) hlt
        rw [if_pos (by simp [hc2]), eb, Res.ok_bind]
        cases b with
        | true => exact Or.inl ⟨_, rfl⟩
        | false => exact Or.inr ⟨off + n + 1, _, by omega, hlt, rfl⟩
      · left
        exact ⟨_, by rw [if_neg (by simpa using hc2)]; rfl⟩
  · intro fuel off lineno hoff
    obtain ⟨n, en, h1, _, _⟩ := strcspn_spec str off hoff [10, 60]
    rw [textLoop, en, Res.ok_bind, rd_ok h1, Res.ok_bind]
    by_cases hc : byte str (off + n) = 10
    · right
      have hlt : off + n < str.length := byte_lt_of_ne_zero (by omega)
      exact ⟨off + n + 1, _, by omega, hlt, by rw [if_neg (by simp [hc])]⟩
    · left
      exact ⟨_, by rw [if_pos (by simpa using hc)]; rfl⟩
  · intro fuel off lineno t hoff hl
    by_cases hexit : str.length ≤ off ∨ byte str off = 62
    · exact Or.inl ⟨_, tagLoop_exit decode str fuel off lineno t hexit⟩
    · have hlt : off < str.length := by omega
      have hb : byte str off ≠ 62 := fun h => hexit (Or.inr h)
      obtain ⟨o1, l1, _, hs1, _, _, hcase⟩ := tagLoop_step decode str fuel off lineno t hlt hb hl
      have h01 := hs1.1
      rcases hcase with ⟨c1, e⟩ | ⟨_, o2, l2, _, hs2, hlt2, _, hcase2⟩ | ⟨c3, hcase3⟩ |
        ⟨_, o2, o3, l3, _, hlt2, _, _, h23, hs3, hcase4⟩ | ⟨_, _, _, _, e⟩
      · right; right
        have hne : o1 ≠ off := by
          intro h
          rw [h] at c1
          exact hb c1
        exact ⟨o1, l1, t, by omega, hs1.2.1, e⟩
      · rcases hcase2 with ⟨_, e⟩ | ⟨_, e⟩
        · exact Or.inr (Or.inl ⟨_, _, _, e⟩)
        · exact Or.inr (Or.inr ⟨o2, l2, _, by omega, hs2.2.1, e⟩)
      · rcases hcase3 with ⟨_, e⟩ | ⟨_, e⟩
        · exact Or.inr (Or.inl ⟨_, _, _, e⟩)
        · have hlt1 : o1 < str.length := byte_lt_of_ne_zero (by omega)
          exact Or.inr (Or.inr ⟨o1 + 1, l1, t, by omega, hlt1, e⟩)
      · rcases hcase4 with ⟨o, l, _, _, e⟩ | ⟨v, o4, l4, _, hs4, e⟩
        · exact Or.inr (Or.inl ⟨_, _, _, e⟩)
        · have h34 := hs4.1
          exact Or.inr (Or.inr ⟨o4, l4, _, by omega, hs4.2.1, e⟩)
      · exact Or.inr (Or.inl ⟨_, _, _, e⟩)

/-- Claim C15 at the buffer `<a b='1'\n c>` read from offset 0, and at one
turn of `skipspaces` on the buffer made of a newline and `x`. -/
theorem C15_terminates_witness :
    ((∃ node off' lineno', rbxml_parse_element id (ofString "<a b='1'\n c>") 0 1
        = .ok (node, off', lineno')) ∨
      (∃ msg off' lineno', rbxml_parse_element id (ofString "<a b='1'\n c>") 0 1
        = .stop (.raised msg off' lineno')) ∨
      rbxml_parse_element id (ofString "<a b='1'\n c>") 0 1 = .stop .badlen) ∧
    ((∃ r, skipspaces (ofString "\nx") (2 + 1) 0 1 = .ok r) ∨
      (∃ o' l', 0 < o' ∧ o' ≤ (ofString "\nx").length ∧
        skipspaces (ofString "\nx") (2 + 1) 0 1 = skipspaces (ofString "\nx") 2 o' l')) :=
  ⟨(C15_terminates id (ofString "<a b='1'\n c>")).1 0 1 (by decide) (by decide),
   (C15_terminates id (ofString "\nx")).2.1 2 0 1 (by decide)⟩

/-- Claim C16, as stated, fails: in `<a`, newline, `b>` the name is `a`, cut
at the newline, not the run `a`, newline, `b`; and `</a>` gives the name
`/a`, which contains `'/'`. -/
theorem C16_name_span_counterexample :
    rbxml_parse_element id (ofString "<a\nb>") 0 1
      = .ok (.tag ⟨ofString "a", [(ofString "b", ofString "b")], false⟩, 5, 2) ∧
    ofString "a" ≠ ofString "a\nb" ∧
    rbxml_parse_element id (ofString "</a>") 0 1
      = .ok (.tag ⟨ofString "/a", [], false⟩, 4, 1) ∧
    47 ∈ ofString "/a" := by
  decide

/-- Claim C16, amended: the name of a returned tag is `str[o1, o2)`, where
`o1` is the first non-blank byte after the `'<'` and `o2` ends the longest
run, started at `o1` or just after a `'/'` found at `o1`, of bytes that are
neither NUL nor in the table wstagname (blank, CR, tab, newline, `'/'`,
`'>'`); the byte at `o2` is NUL or in that table. -/
theorem C16_name_span (decode : Bytes → Bytes) (str : Bytes) (off lineno : Nat) (t : Tag)
    (off' lineno' : Nat) (hl : lineno < ULONG_MOD)
    (h : rbxml_parse_element decode str off lineno = .ok (.tag t, off', lineno')) :
    ∃ o1 o2, off < o1 ∧ (∀ i, off < i → i < o1 → isWhite (byte str i)) ∧
      ¬ isWhite (byte str o1) ∧ t.name = slice str o1 o2 ∧
      (if byte str o1 = 47 then o1 + 1 else o1) ≤ o2 ∧ o2 ≤ str.length ∧
      (∀ i, (if byte str o1 = 47 then o1 + 1 else o1) ≤ i → i < o2 →
        byte str i ≠ 0 ∧ byte str i ∉ wstagname) ∧
      (byte str o2 = 0 ∨ byte str o2 ∈ wstagname) := by
  obtain ⟨o1, l1, o2, o, h01, hw1, hn1, _, hsel, ho2, hrun, hstop, hname, _⟩ :=
    parse_tag_shape decode str off lineno t off' lineno' hl h
  exact ⟨o1, o2, h01, hw1, hn1, hname, hsel, ho2, hrun, hstop⟩

/-- Claim C16, amended, at `</a>`: the name `/a` is `str[1, 3)`. -/
theorem C16_name_span_witness :
    rbxml_parse_element id (ofString "</a>") 0 1
      = .ok (.tag ⟨ofString "/a", [], false⟩, 4, 1) ∧
    ∃ o1 o2, 0 < o1 ∧ (∀ i, 0 < i → i < o1 → isWhite (byte (ofString "</a>") i)) ∧
      ¬ isWhite (byte (ofString "</a>") o1) ∧
      (⟨ofString "/a", [], false⟩ : Tag).name = slice (ofString "</a>") o1 o2 ∧
      (if byte (ofString "</a>") o1 = 47 then o1 + 1 else o1) ≤ o2 ∧
      o2 ≤ (ofString "</a>").length ∧
      (∀ i, (if byte (ofString "</a>") o1 = 47 then o1 + 1 else o1) ≤ i → i < o2 →
        byte (ofString "</a>") i ≠ 0 ∧ byte (ofString "</a>") i ∉ wstagname) ∧
      (byte (ofString "</a>") o2 = 0 ∨ byte (ofString "</a>") o2 ∈ wstagname) :=
  ⟨by decide, C16_name_span id (ofString "</a>") 0 1 ⟨ofString "/a", [], false⟩ 4 1
    (by decide) (by decide)⟩

/-- Claim C17: on the buffer `</n>`, with `n` free of blank, CR, tab,
newline, `'/'`, `'>'` and NUL (non-empty or not), the call returns the tag
named `/` followed by `n`, with no attribute and the flag down; the cursor
ends at `len n + 3` and the line counter is unchanged. -/
theorem C17_closing_tag (decode : Bytes → Bytes) (n : Bytes) (lineno : Nat)
    (hnc : ∀ c ∈ n, c ≠ 32 ∧ c ≠ 13 ∧ c ≠ 9 ∧ c ≠ 10 ∧ c ≠ 47 ∧ c ≠ 62 ∧ c ≠ 0)
    (hl : lineno < ULONG_MOD) :
    rbxml_parse_element decode (closeTagText n) 0 lineno =
      .ok (.tag ⟨47 :: n, [], false⟩, n.length + 3, lineno) := by
  have hcount : (closeTagText n).count 10 = 0 := by
    rw [List.count_eq_zero]
    intro hmem
    simp only [closeTagText, List.mem_cons, List.mem_append, List.mem_singleton] at hmem
    rcases hmem with h | h | h | h | h
    · omega
    · omega
    · exact (hnc 10 h).2.2.2.1 rfl
    · omega
    · simp at h
  have hview : (closeTagText n).drop 0 = 60 :: 47 :: (n ++ [62]) := rfl
  have hp := parse_post decode (closeTagText n) 0 lineno (Nat.zero_le _) hl
  generalize closeTagText n = str at hview hp hcount ⊢
  obtain ⟨hlt0, hb0, h1⟩ := drop_head hview
  obtain ⟨hlt1, hb1, h2⟩ := drop_head h1
  obtain ⟨hle2, h3, hsn, hnm, _⟩ := drop_run h2 hlt1
  obtain ⟨hlt3, hb3, h4⟩ := drop_head h3
  have hlen := drop_end h4 hlt3
  obtain ⟨o1, l1, o2, _, h01, hw1, hn1, h12, hs2, hrun, hsel, hstop, hcase⟩ :=
    parse_open decode str 0 lineno (Nat.zero_le _) hl hb0
  have ho1 : o1 = 0 + 1 := by
    apply first_nonwhite_unique str (0 + 1) o1 (0 + 1)
      (fun i hi1 hi2 => hw1 i hi1 hi2) hn1 (fun i hi1 hi2 => by omega) _ h01 (Nat.le_refl _)
    rw [hb1]; simp [isWhite]
  subst ho1
  rw [if_pos hb1] at hrun hsel
  have ho2 : o2 = 0 + 1 + 1 + n.length := by
    apply first_unique (fun i => byte str i = 0 ∨ byte str i ∈ wstagname) (0 + 1 + 1)
    · intro i hi1 hi2 hP
      have := hrun i hi1 hi2
      rcases hP with h | h
      · exact this.1 h
      · exact this.2 h
    · exact hstop
    · intro i hi1 hi2 hP
      have hc := hnc _ (hnm i hi1 hi2)
      rcases hP with h | h
      · exact hc.2.2.2.2.2.2 h
      · simp [wstagname] at h
        omega
    · show byte str (0 + 1 + 1 + n.length) = 0 ∨ byte str (0 + 1 + 1 + n.length) ∈ wstagname
      rw [hb3]; simp [wstagname]
    · exact hsel
    · omega
  subst ho2
  have hname : slice str (0 + 1) (0 + 1 + 1 + n.length) = 47 :: n := by
    obtain ⟨_, _, hs, _, _⟩ :=
      drop_run (show str.drop (0 + 1) = (47 :: n) ++ [62] by simpa using h1) hlt0
    have e : 0 + 1 + (47 :: n).length = 0 + 1 + 1 + n.length := by
      rw [List.length_cons]; omega
    rw [e] at hs
    exact hs
  rcases hcase with ⟨c0, _⟩ | ⟨_, hok, _⟩
  · omega
  · rw [hname] at hok
    have e := tagLoop_exit decode str str.length (0 + 1 + 1 + n.length) l1 ⟨47 :: n, [], false⟩
      (Or.inr hb3)
    have hres := (hok _ _ _ e).1 hb3
    rw [hres] at hp
    have hl1 := hp.1.2.2
    rw [hlen, nlRange_all, hcount, Nat.add_zero, Nat.mod_eq_of_lt hl] at hl1
    rw [hres, hl1]
    have : 0 + 1 + 1 + n.length + 1 = n.length + 3 := by omega
    rw [this]

/-- Claim C17 at `</tag>`: name `/tag`, cursor at 6. -/
theorem C17_closing_tag_witness :
    closeTagText (ofString "tag") = ofString "</tag>" ∧
    rbxml_parse_element id (ofString "</tag>") 0 1 =
      .ok (.tag ⟨47 :: ofString "tag", [], false⟩, (ofString "tag").length + 3, 1) :=
  ⟨by decide, C17_closing_tag id (ofString "tag") 1 (by decide) (by decide)⟩

/-- Claim C18 at the failing input `<!-->`: the comment loop stops at the
cursor 5, the test of line 84 accepts the bytes `-->` at 2, 3, 4 (the two
dashes are those of the opening marker), so `off_end` is 2, below the text
start 4, and the call ends in the host's refusal of a negative length. -/
theorem C18_comment_length_failing_input :
    commentLoop (ofString "<!-->") 4 6 4 1 = .ok (5, 1) ∧
    commentStrip (ofString "<!-->") 5 = .ok true ∧
    5 - 3 < 4 ∧
    rbxml_parse_element id (ofString "<!-->") 0 1 = .stop .badlen := by
  decide

/-- Claim C19 at the failing input `<!--a->`: the bytes consumed after the
opening marker are `a->`, which do not end with `-->`, and the call returns
the empty text: the three bytes `a->` are dropped. -/
theorem C19_comment_bytes_failing_input :
    rbxml_parse_element id (ofString "<!--a->") 0 1 = .ok (.comment [], 7, 1) ∧
    slice (ofString "<!--a->") 4 7 = ofString "a->" ∧
    ¬ (ofString "-->" <:+ ofString "a->") := by
  decide

/-- Claim C20: at a cursor before the end of the buffer whose byte is NUL,
the call takes the raw-text path and returns the decoded empty text with the
cursor and the line counter unchanged, so calling again at that position
gives the same result. -/
theorem C20_nul_stalls (decode : Bytes → Bytes) (str : Bytes) (off lineno : Nat)
    (hoff : off < str.length) (hz : byte str off = 0) :
    rbxml_parse_element decode str off lineno = .ok (.text (decode []), off, lineno) := by
  obtain ⟨n, en, h1, h2, _⟩ := strcspn_spec str off (Nat.le_of_lt hoff) [10, 60]
  have hn0 : n = 0 := by
    by_contra hne
    exact (h2 off (Nat.le_refl _) (by omega)).1 hz
  subst hn0
  rw [rbxml_parse_element, rd_ok (Nat.le_of_lt hoff), Res.ok_bind, if_neg (by simp [hz]),
    textLoop, en, Res.ok_bind, Nat.add_zero, rd_ok (Nat.le_of_lt hoff), Res.ok_bind,
    if_pos (by simp [hz])]
  try dsimp only
  rw [Res.pure_eq, Res.ok_bind]
  try dsimp only
  rw [rb_str_new_ok (Nat.le_refl _) (Nat.le_of_lt hoff), Res.ok_bind]
  simp [slice]

/-- Claim C20 at the buffer `a`, NUL, `b` read from offset 1. -/
theorem C20_nul_stalls_witness :
    byte [97, 0, 98] 1 = 0 ∧
    rbxml_parse_element id [97, 0, 98] 1 7 = .ok (.text (id []), 1, 7) :=
  ⟨by decide, C20_nul_stalls id [97, 0, 98] 1 7 (by decide) (by decide)⟩

end XmlParser
